import Mathlib

/-!
Verification development for the certified-removal decision tree engine
(`mulan/trees/tree.py`): the row store, per-node split-statistics cache,
recursive build, batch deletion, and prediction, embedded over exact
rationals with Python integer arithmetic as `ℤ`/`ℕ`.
-/

namespace Mulan

set_option maxRecDepth 2000

/-- Round-half-to-even of a rational to an integer, modelling Python's
`round` (banker's rounding) applied to exact values. -/
def halfEven (q : ℚ) : ℤ :=
  let f := ⌊q⌋
  if q - f < 1 / 2 then f
  else if (1 : ℚ) / 2 < q - f then f + 1
  else if f % 2 = 0 then f else f + 1

/-- `round(x, 8)` as used throughout tree.py: round to 8 decimal places. -/
def round8 (q : ℚ) : ℚ := (halfEven (q * 100000000) : ℚ) / 100000000

/-- One training row as threaded through `_build_tree` / `_delete`: feature
vector, label, and the stable row key. The code passes the parallel arrays
`X`, `y`, `keys`; every call site keeps them aligned, so the embedding zips
them into one list of rows. -/
structure TRow where
  x : List ℕ
  yv : ℕ
  key : ℕ
deriving DecidableEq, Repr

/-- The split test `X[:, i] == 1` on one row (out-of-range reads never occur
at the call sites, where every row has the full feature count). -/
def xAt (i : ℕ) (r : TRow) : Bool := r.x.getD i 0 == 1

/-- Node-level statistics `node_dict['count' / 'pos_count' / 'gini_data']`. -/
structure NodeStats where
  count : ℤ
  pos_count : ℤ
  gini_data : ℚ
deriving DecidableEq, Repr

/-- One branch record `node_dict['attr'][i]['left' / 'right']`. -/
structure BranchRec where
  count : ℤ
  pos_count : ℤ
  weight : ℚ
  pos_prob : ℚ
  index : ℚ
  weighted_index : ℚ
deriving DecidableEq, Repr

/-- One split record `node_dict['attr'][i]`. -/
structure SplitRec where
  left : BranchRec
  right : BranchRec
  gini_index : ℚ
deriving DecidableEq, Repr

/-- `Tree._compute_gini_index` (tree.py:526-528), taking the two branch
records of the attribute dictionary. -/
def computeGiniIndex (l r : BranchRec) : ℚ :=
  round8 (l.weighted_index + r.weighted_index)

/-- A `DecisionNode` (tree.py:10-41): a leaf carries `value` plus its
node_dict's `leaf_value` and `indices`; an internal node carries
`feature_i`, the per-feature cache `attr` (an association list in dict
insertion order) and the two children. -/
inductive DNode where
  | leaf (value : ℚ) (stats : NodeStats) (leaf_value : ℚ) (indices : List ℕ)
  | node (feature_i : ℕ) (stats : NodeStats) (attr : List (ℕ × SplitRec))
      (left right : DNode)
deriving DecidableEq, Repr

/-- Tree hyper-parameters plus the two abstracted numerical primitives:
`ef` models `np.exp` (positivity and monotonicity facts about `exp` are
supplied as hypotheses where a claim needs them), and `chooser` models
`np.random.seed(random_state); np.random.choice(attrs, p=p)` — because the
code reseeds from the fixed `random_state` immediately before every draw
(tree.py:237), each draw is a pure function of the candidate list and the
probability vector. -/
structure Params where
  epsilon : ℚ
  gamma : ℚ
  maxDepth : ℕ
  minSamplesSplit : ℕ
  ef : ℚ → ℚ
  chooser : List ℕ → List ℚ → ℕ

/-- The split record `_build_tree` caches for feature `i` over the rows at a
node (tree.py:176-226); `none` when a branch is empty, in which case the
feature is skipped. Mirrors the code in computing `right_count` as
`n_samples - left_count`. -/
def splitRecFor (rows : List TRow) (i : ℕ) : Option SplitRec :=
  let lf := rows.filter (xAt i)
  let rt := rows.filter (fun r => !(xAt i r))
  let n := rows.length
  if lf.length > 0 ∧ n - lf.length > 0 then
    let leftCount : ℕ := lf.length
    let leftPos : ℕ := (lf.map TRow.yv).sum
    let rightCount : ℕ := n - lf.length
    let rightPos : ℕ := (rt.map TRow.yv).sum
    let lprob : ℚ := (leftPos : ℚ) / (leftCount : ℚ)
    let lweight : ℚ := (leftCount : ℚ) / (n : ℚ)
    let lindex : ℚ := 1 - (lprob ^ 2 + (1 - lprob) ^ 2)
    let rprob : ℚ := (rightPos : ℚ) / (rightCount : ℚ)
    let rweight : ℚ := (rightCount : ℚ) / (n : ℚ)
    let rindex : ℚ := 1 - (rprob ^ 2 + (1 - rprob) ^ 2)
    let lrec : BranchRec :=
      ⟨(leftCount : ℤ), (leftPos : ℤ), lweight, lprob, lindex, lweight * lindex⟩
    let rrec : BranchRec :=
      ⟨(rightCount : ℤ), (rightPos : ℤ), rweight, rprob, rindex, rweight * rindex⟩
    some ⟨lrec, rrec, computeGiniIndex lrec rrec⟩
  else none

/-- `p / p.sum()` on a numpy vector. -/
def normalize (l : List ℚ) : List ℚ := l.map (fun v => v / l.sum)

/-- One unnormalized softmax weight `np.exp(-(epsilon * g) / (5 * gamma))`
(tree.py:233 and 426/430). -/
def softWeight (P : Params) (g : ℚ) : ℚ := P.ef (-(P.epsilon * g) / (5 * P.gamma))

/-- The ValueError / KeyError conditions the engine can raise, plus fuel
exhaustion of the embedding (the call sites used here always pass more fuel
than the remaining depth budget, so `fuelOut` is never reached there). -/
inductive Err where
  | degenerateRoot
  | emptyNode
  | emptyChoice
  | unknownKey
  | attrKeyMissing
  | fuelOut
deriving DecidableEq, Repr

/-- `Tree._build_tree` (tree.py:126-247). Returns the subtree together with
the number of `np.random.seed` calls performed: the code runs one at
tree.py:237 for every decision node it creates. The `fuel` argument only
makes the recursion structural. -/
def buildT (P : Params) (F : ℕ) : ℕ → List TRow → ℕ → Except Err (DNode × ℕ)
  | 0, _, _ => .error .fuelOut
  | fuel + 1, rows, depth =>
    let n : ℕ := rows.length
    let pos : ℕ := (rows.map TRow.yv).sum
    let neg : ℤ := (n : ℤ) - (pos : ℤ)
    let gini := round8 (1 - ((pos : ℚ) / (n : ℚ)) ^ 2 - ((neg : ℚ) / (n : ℚ)) ^ 2)
    let stats : NodeStats := ⟨(n : ℤ), (pos : ℤ), gini⟩
    if n = 0 then .error .emptyNode
    else if (pos = 0 ∨ pos = n) ∧ depth = 0 then .error .degenerateRoot
    else if n < P.minSamplesSplit ∨ depth = P.maxDepth ∨ (F : ℤ) - (depth : ℤ) = 0
        ∨ pos = 0 ∨ pos = n then
      .ok (.leaf ((pos : ℚ) / (n : ℚ)) stats
        (if pos = 0 then 0 else (pos : ℚ) / (n : ℚ)) (rows.map TRow.key), 0)
    else
      let cand := (List.range F).filterMap
        (fun i => (splitRecFor rows i).map (fun s => (i, s)))
      let attrIdx := cand.map Prod.fst
      let pV := normalize ((cand.map (fun c => c.2.gini_index)).map (softWeight P))
      if attrIdx.isEmpty then .error .emptyChoice
      else
        let f := P.chooser attrIdx pV
        match buildT P F fuel (rows.filter (xAt f)) (depth + 1),
              buildT P F fuel (rows.filter (fun r => !(xAt f r))) (depth + 1) with
        | .ok (l, sl), .ok (r, sr) => .ok (.node f stats cand l r, 1 + sl + sr)
        | .error e, _ => .error e
        | _, .error e => .error e

/-- `Tree.get_indices` (tree.py:530-544): concatenate leaf indices. -/
def gatherIndices : DNode → List ℕ
  | .leaf _ _ _ idx => idx
  | .node _ _ _ l r => gatherIndices l ++ gatherIndices r

/-- `np.setdiff1d(arr, elements)` (`Tree._remove_elements`, tree.py:96-97):
the sorted, deduplicated values of `arr` not occurring in `elements`. -/
def removeElements (arr elems : List ℕ) : List ℕ :=
  List.insertionSort (· ≤ ·) ((arr.filter (fun a => !(elems.contains a))).dedup)

/-- The row store `X_train_` / `y_train_` as one association list
key ↦ (x, y); `_numpy_to_dict` (tree.py:99-107) assigns keys 0..N-1. -/
def storeOf (X : List (List ℕ)) (y : List ℕ) : List (ℕ × (List ℕ × ℕ)) :=
  (List.range X.length).map (fun i => (i, (X.getD i [], y.getD i 0)))

/-- `Tree._get_numpy_data` (tree.py:109-124): fetch the rows for the given
keys, in order; `none` models the KeyError on an absent key. -/
def getData (store : List (ℕ × (List ℕ × ℕ))) (ks : List ℕ) : Option (List TRow) :=
  ks.mapM (fun k => (store.lookup k).map (fun r => ⟨r.1, r.2, k⟩))

/-- The mutable state a fitted `Tree` instance holds: `n_features_`,
`X_train_` / `y_train_`, and `root_`. -/
structure TreeState where
  nFeatures : ℕ
  store : List (ℕ × (List ℕ × ℕ))
  root : DNode
deriving DecidableEq, Repr

/-- Zip the parallel arrays X, y, keys into rows. -/
def mkRows (X : List (List ℕ)) (y : List ℕ) (keys : List ℕ) : List TRow :=
  (X.zip (y.zip keys)).map (fun p => ⟨p.1, p.2.1, p.2.2⟩)

/-- `Tree.fit` (tree.py:81-94): `n_features_ = X.shape[1]`, keys 0..N-1,
store the rows, build from depth 0. -/
def fitT (P : Params) (X : List (List ℕ)) (y : List ℕ) : Except Err TreeState :=
  let F := (X.headD []).length
  (buildT P F (P.maxDepth + 1) (mkRows X y (List.range X.length)) 0).map
    (fun t => ⟨F, storeOf X y, t.1⟩)

/-- The number of `np.random.seed` calls performed by `fit`. -/
def fitSeedCalls (P : Params) (X : List (List ℕ)) (y : List ℕ) : Except Err ℕ :=
  (buildT P ((X.headD []).length) (P.maxDepth + 1)
    (mkRows X y (List.range X.length)) 0).map (fun t => t.2)

/-- `Tree._predict_value` (tree.py:600-621). -/
def predictValue (x : List ℕ) : DNode → ℚ
  | .leaf v _ _ _ => v
  | .node f _ _ l r => if x.getD f 0 == 1 then predictValue x l else predictValue x r

/-- `Tree.predict_proba` (tree.py:272-279): per sample `[1 - p, p]`. -/
def predictProba (t : DNode) (X : List (List ℕ)) : List (ℚ × ℚ) :=
  X.map (fun x => (1 - predictValue x t, predictValue x t))

/-- `Tree._update_decision_node` (tree.py:492-524) on one branch record:
`none` when the branch would be emptied (`count <= len(y)`), otherwise the
record updated in place. The block at tree.py:518-522 that would refresh the
non-affected branch's weight is commented out in the source and so does not
run. -/
def updateDecisionNode (nodeCount : ℤ) (b : BranchRec) (ys : List ℕ) : Option BranchRec :=
  if b.count ≤ (ys.length : ℤ) then none
  else
    let sumY : ℕ := ys.sum
    let cnt := b.count - (ys.length : ℤ)
    let pos := b.pos_count - (sumY : ℤ)
    let w : ℚ := (cnt : ℚ) / (nodeCount : ℚ)
    let prob : ℚ := (pos : ℚ) / (cnt : ℚ)
    let idx : ℚ := 1 - (prob ^ 2 + (1 - prob) ^ 2)
    some ⟨cnt, pos, w, prob, idx, w * idx⟩

/-- Outcome of the per-feature pass of `_delete` (tree.py:386-422) on one
`attr` entry: whether the feature was invalidated, its contributions to the
old and new gini vectors, and the surviving updated entry. -/
structure AttrStep where
  invalid : Bool
  oldG : ℚ
  newG : ℚ
  entry : Option (ℕ × SplitRec)
deriving DecidableEq, Repr

/-- One iteration of the per-feature loop of `_delete` (tree.py:392-418). -/
def procAttr (nodeCount : ℤ) (batch : List TRow) (e : ℕ × SplitRec) : AttrStep :=
  let lB := batch.filter (xAt e.1)
  let rB := batch.filter (fun r => !(xAt e.1 r))
  let lres := if lB.length > 0 then
    updateDecisionNode nodeCount e.2.left (lB.map TRow.yv) else some e.2.left
  let rres := if rB.length > 0 then
    updateDecisionNode nodeCount e.2.right (rB.map TRow.yv) else some e.2.right
  match lres, rres with
  | some lb, some rb =>
    let g := computeGiniIndex lb rb
    ⟨false, e.2.gini_index, g, some (e.1, ⟨lb, rb, g⟩)⟩
  | _, _ => ⟨true, e.2.gini_index, 0, none⟩

/-- The node-level statistics update of `_delete`'s internal case
(tree.py:321-328); the code computes `neg_count` as `pos_count - count`. -/
def deleteNodeStats (st : NodeStats) (batch : List TRow) : NodeStats :=
  let sumY : ℕ := (batch.map TRow.yv).sum
  let cnt := st.count - (batch.length : ℤ)
  let pos := st.pos_count - (sumY : ℤ)
  let neg := pos - cnt
  ⟨cnt, pos, round8 (1 - ((pos : ℚ) / (cnt : ℚ)) ^ 2 - ((neg : ℚ) / (cnt : ℚ)) ^ 2)⟩

/-- The divergence test of `_delete` (tree.py:436): some ratio of new to old
probability exceeds `e^epsilon` or falls below `e^-epsilon`. -/
def divergent (P : Params) (newP oldP : List ℚ) : Bool :=
  (newP.zip oldP).any
    (fun q => decide (P.ef P.epsilon < q.1 / q.2) || decide (q.1 / q.2 < P.ef (-P.epsilon)))

/-- `Tree._delete` (tree.py:305-479). The error value carries the tree as
already mutated when the exception escapes: the code updates `node_dict` in
place before the depth-0 degeneracy check and keeps child replacements and
attribute updates made before a raise, and `self.root_` is only reassigned
on normal return, so the caller sees exactly this partially-updated tree. -/
def deleteStep (P : Params) (F : ℕ) (store : List (ℕ × (List ℕ × ℕ))) :
    DNode → List TRow → ℕ → Except (Err × DNode) (DNode × List String)
  | .leaf _ st _ idx, batch, _ =>
    let sumY : ℕ := (batch.map TRow.yv).sum
    let cnt := st.count - (batch.length : ℤ)
    let pos := st.pos_count - (sumY : ℤ)
    let lv : ℚ := if pos = 0 then 0 else (pos : ℚ) / (cnt : ℚ)
    .ok (.leaf lv ⟨cnt, pos, st.gini_data⟩ lv
      (removeElements idx (batch.map TRow.key)), ["1a"])
  | .node f st attr l r, batch, depth =>
    let st' := deleteNodeStats st batch
    let lB := batch.filter (xAt f)
    let rB := batch.filter (fun r => !(xAt f r))
    if depth = 0 ∧ (st'.pos_count = 0 ∨ st'.pos_count = st'.count) then
      .error (.degenerateRoot, .node f st' attr l r)
    else if st'.pos_count = 0 ∨ st'.pos_count = st'.count then
      let lv : ℚ := (st'.pos_count : ℚ) / (st'.count : ℚ)
      .ok (.leaf lv st' lv
        (removeElements (gatherIndices (.node f st' attr l r)) (batch.map TRow.key)),
        ["1b"])
    else
      match attr.lookup f with
      | none => .error (.attrKeyMissing, .node f st' attr l r)
      | some frec =>
        if frec.left.count - (lB.length : ℤ) ≤ 0 ∨
            frec.right.count - (rB.length : ℤ) ≤ 0 then
          match getData store
            (removeElements (gatherIndices (.node f st' attr l r)) (batch.map TRow.key)) with
          | none => .error (.unknownKey, .node f st' attr l r)
          | some rows2 =>
            match buildT P F (P.maxDepth + 1 - depth) rows2 depth with
            | .error e => .error (e, .node f st' attr l r)
            | .ok (t2, _) => .ok (t2, ["2a_" ++ Nat.repr depth])
        else
          let steps := attr.map (procAttr (deleteNodeStats st batch).count batch)
          let attr2 := steps.filterMap AttrStep.entry
          let oldP := normalize ((steps.map AttrStep.oldG).map (softWeight P))
          let newP := normalize
            (steps.map (fun s => if s.invalid then 0 else softWeight P s.newG))
          if divergent P newP oldP then
            match getData store
              (removeElements (gatherIndices (.node f st' attr2 l r)) (batch.map TRow.key)) with
            | none => .error (.unknownKey, .node f st' attr2 l r)
            | some rows2 =>
              match buildT P F (P.maxDepth + 1 - depth) rows2 depth with
              | .error e => .error (e, .node f st' attr2 l r)
              | .ok (t2, _) =>
                .ok (t2,
                  [(if steps.any AttrStep.invalid then "2b_" else "2c_") ++ Nat.repr depth])
          else
            if lB.length > 0 then
              match deleteStep P F store l lB (depth + 1) with
              | .error (e, l2) => .error (e, .node f st' attr2 l2 r)
              | .ok (l2, trL) =>
                if rB.length > 0 then
                  match deleteStep P F store r rB (depth + 1) with
                  | .error (e, r2) => .error (e, .node f st' attr2 l2 r2)
                  | .ok (r2, trR) => .ok (.node f st' attr2 l2 r2, trL ++ trR)
                else .ok (.node f st' attr2 l2 r, trL)
            else
              if rB.length > 0 then
                match deleteStep P F store r rB (depth + 1) with
                | .error (e, r2) => .error (e, .node f st' attr2 l r2)
                | .ok (r2, trR) => .ok (.node f st' attr2 l r2, trR)
              else .ok (.node f st' attr2 l r, [])

/-- `Tree.delete` (tree.py:281-302): fetch the batch rows (a KeyError on an
absent key surfaces here, before any mutation), run `_delete` from the
root, then drop the batch keys from the row store. On an escaped exception
the state keeps the in-place mutations `_delete` made before raising and
the row-store removal loop never runs. -/
def deleteT (P : Params) (s : TreeState) (removeKeys : List ℕ) :
    Except (Err × TreeState) (TreeState × List String) :=
  match getData s.store removeKeys with
  | none => .error (.unknownKey, s)
  | some batch =>
    match deleteStep P s.nFeatures s.store s.root batch 0 with
    | .error (e, t2) => .error (e, ⟨s.nFeatures, s.store, t2⟩)
    | .ok (t2, tr) =>
      .ok (⟨s.nFeatures, s.store.filter (fun kv => !(removeKeys.contains kv.1)), t2⟩, tr)

/-- The attributes `Tree.__init__` (tree.py:63-69) and `fit` (tree.py:81-94)
assign on a fitted instance. -/
def fittedTreeAttrs : List String :=
  ["epsilon", "gamma", "max_depth", "min_samples_split", "random_state",
   "verbose", "n_features_", "X_train_", "y_train_", "root_"]

/-- `Tree.copy` (tree.py:249-262). Its first statement evaluates
`self.min_impurity`, an attribute no code path ever assigns (and a keyword
`Tree.__init__` does not accept), so Python raises AttributeError before
anything is copied. The embedding models the attribute lookup against
`fittedTreeAttrs`; the `ok` arm holds the value-level deep copy, which in a
pure embedding is the state itself. -/
def copyT (s : TreeState) : Except String TreeState :=
  if "min_impurity" ∈ fittedTreeAttrs then .ok s
  else .error "AttributeError: Tree object has no attribute min_impurity"

/-- `np.random.choice(attrs, p=p)` returns an element of `attrs`; the
abstract `chooser` is only constrained to do the same. -/
def chooserValid (P : Params) : Prop :=
  ∀ as ps, as ≠ [] → P.chooser as ps ∈ as

/-- `np.exp` is positive; the abstract `ef` is constrained to match where a
claim needs it. -/
def efPos (P : Params) : Prop := ∀ q : ℚ, 0 < P.ef q

/-- The split-statistics invariant of §3 of the spec, relative to the
multiset of rows currently routed to a node: at an internal node the cached
branch counts of every feature in `attr` are the true counts over those
rows and are at least 1, the current split feature is in `attr`, and at a
leaf `indices` is exactly the key multiset of those rows. -/
def WF : DNode → Multiset TRow → Prop
  | .leaf _ _ _ idx, rows => (idx : Multiset ℕ) = rows.map TRow.key
  | .node f _ attr l r, rows =>
      (∃ rec, attr.lookup f = some rec) ∧
      (∀ e ∈ attr,
        e.2.left.count = (rows.countP (fun row => xAt e.1 row = true) : ℤ) ∧
        e.2.right.count = (rows.countP (fun row => ¬ xAt e.1 row = true) : ℤ) ∧
        1 ≤ e.2.left.count ∧ 1 ≤ e.2.right.count) ∧
      WF l (rows.filter (fun row => xAt f row = true)) ∧
      WF r (rows.filter (fun row => ¬ xAt f row = true))

/-- Feature `i` does not occur anywhere in a subtree: neither in a split
cache nor as a chosen split feature. -/
def avoids (i : ℕ) : DNode → Prop
  | .leaf _ _ _ _ => True
  | .node f _ attr l r => attr.lookup i = none ∧ f ≠ i ∧ avoids i l ∧ avoids i r

/-- No feature is reused on any root-to-leaf path of the subtree. -/
def PathOK : DNode → Prop
  | .leaf _ _ _ _ => True
  | .node f _ _ l r => avoids f l ∧ avoids f r ∧ PathOK l ∧ PathOK r

/-- The row store agrees with a multiset of rows on their keys. -/
def StoreOK (store : List (ℕ × (List ℕ × ℕ))) (rows : Multiset TRow) : Prop :=
  ∀ r ∈ rows, store.lookup r.key = some (r.x, r.yv)

/-- The keys kept when deleting key set `D` from keys `0..n-1`, in order. -/
def keepKeys (n : ℕ) (D : List ℕ) : List ℕ :=
  (List.range n).filter (fun i => !(D.contains i))

/-- `X` with the rows whose key is in `D` removed (row order preserved),
i.e. the reduced training matrix `X − D`. -/
def reducedX (X : List (List ℕ)) (D : List ℕ) : List (List ℕ) :=
  (keepKeys X.length D).map (fun i => X.getD i [])

/-- `y` with the entries whose key is in `D` removed. -/
def reducedY (X : List (List ℕ)) (y : List ℕ) (D : List ℕ) : List ℕ :=
  (keepKeys X.length D).map (fun i => y.getD i 0)

/-- The trace `delete` produces on an empty batch: `_delete` still visits
the root, and a leaf root appends `"1a"`. -/
def emptyBatchTrace : DNode → List String
  | .leaf _ _ _ _ => ["1a"]
  | .node _ _ _ _ _ => []

/-- The deterministic stand-ins for `np.exp` and the seeded
`np.random.choice` used in all concrete scenarios: a constant positive
function and the first-candidate chooser. -/
def constOne : ℚ → ℚ := fun _ => 1

def headChooser : List ℕ → List ℚ → ℕ := fun as _ => as.headD 0

/-- Scenario parameters: epsilon = gamma = 0.1, max_depth = 4, and
min_samples_split 2 / 3 / 4. -/
def PA : Params := ⟨1 / 10, 1 / 10, 4, 2, constOne, headChooser⟩

def PA3 : Params := ⟨1 / 10, 1 / 10, 4, 3, constOne, headChooser⟩

def PA4 : Params := ⟨1 / 10, 1 / 10, 4, 4, constOne, headChooser⟩

/-- Scenario A of the spec: 4 rows over 2 features. -/
def XA : List (List ℕ) := [[1, 0], [1, 1], [0, 1], [0, 0]]

def yA : List ℕ := [1, 1, 0, 0]

def stA : TreeState :=
  ⟨2, [(0, ([1, 0], 1)), (1, ([1, 1], 1)), (2, ([0, 1], 0)), (3, ([0, 0], 0))],
    .node 0 ⟨4, 2, 1 / 2⟩
      [(0, ⟨⟨2, 2, 1 / 2, 1, 0, 0⟩, ⟨2, 0, 1 / 2, 0, 0, 0⟩, 0⟩),
       (1, ⟨⟨2, 1, 1 / 2, 1 / 2, 1 / 2, 1 / 4⟩, ⟨2, 1, 1 / 2, 1 / 2, 1 / 2, 1 / 4⟩, 1 / 2⟩)]
      (.leaf 1 ⟨2, 2, 0⟩ 1 [0, 1]) (.leaf 0 ⟨2, 0, 0⟩ 0 [2, 3])⟩

/-- Single-feature dataset whose root split survives `delete([2])` although
the remaining count drops below `min_samples_split = 4`. -/
def XC1 : List (List ℕ) := [[1], [1], [0], [0]]

def yC1 : List ℕ := [1, 0, 1, 0]

def stC1 : TreeState :=
  ⟨1, [(0, ([1], 1)), (1, ([1], 0)), (2, ([0], 1)), (3, ([0], 0))],
    .node 0 ⟨4, 2, 1 / 2⟩
      [(0, ⟨⟨2, 1, 1 / 2, 1 / 2, 1 / 2, 1 / 4⟩, ⟨2, 1, 1 / 2, 1 / 2, 1 / 2, 1 / 4⟩, 1 / 2⟩)]
      (.leaf (1 / 2) ⟨2, 1, 1 / 2⟩ (1 / 2) [0, 1])
      (.leaf (1 / 2) ⟨2, 1, 1 / 2⟩ (1 / 2) [2, 3])⟩

/-- Single-feature dataset where `delete([0])` leaves the cached
`gini_index` of feature 0 stale (the right branch's weight is not
refreshed). -/
def XC3 : List (List ℕ) := [[1], [1], [1], [1], [0], [0]]

def yC3 : List ℕ := [1, 1, 0, 0, 1, 0]

def stC3 : TreeState :=
  ⟨1, [(0, ([1], 1)), (1, ([1], 1)), (2, ([1], 0)), (3, ([1], 0)), (4, ([0], 1)), (5, ([0], 0))],
    .node 0 ⟨6, 3, 1 / 2⟩
      [(0, ⟨⟨4, 2, 2 / 3, 1 / 2, 1 / 2, 1 / 3⟩, ⟨2, 1, 1 / 3, 1 / 2, 1 / 2, 1 / 6⟩, 1 / 2⟩)]
      (.leaf (1 / 2) ⟨4, 2, 1 / 2⟩ (1 / 2) [0, 1, 2, 3])
      (.leaf (1 / 2) ⟨2, 1, 1 / 2⟩ (1 / 2) [4, 5])⟩

/-- The state after `delete([0])` on `stC3`: the root keeps its split, its
feature-0 record keeps the stale right-branch weight 1/3 (true new weight:
2/5) inside `gini_index = 0.43333333`. -/
def stC3after : TreeState :=
  ⟨1, [(1, ([1], 1)), (2, ([1], 0)), (3, ([1], 0)), (4, ([0], 1)), (5, ([0], 0))],
    .node 0 ⟨5, 2, 12 / 25⟩
      [(0, ⟨⟨3, 1, 3 / 5, 1 / 3, 4 / 9, 4 / 15⟩, ⟨2, 1, 1 / 3, 1 / 2, 1 / 2, 1 / 6⟩,
        round8 (13 / 30)⟩)]
      (.leaf (1 / 3) ⟨3, 1, 1 / 2⟩ (1 / 3) [1, 2, 3])
      (.leaf (1 / 2) ⟨2, 1, 1 / 2⟩ (1 / 2) [4, 5])⟩

/-- A leaf-root fit (2 rows < min_samples_split = 3). -/
def XC4 : List (List ℕ) := [[1], [0]]

def yC4 : List ℕ := [1, 0]

def stC4 : TreeState :=
  ⟨1, [(0, ([1], 1)), (1, ([0], 0))], .leaf (1 / 2) ⟨2, 1, 1 / 2⟩ (1 / 2) [0, 1]⟩

/-- Dataset whose tree (under `headChooser`) has two decision nodes, hence
two `np.random.seed` calls during `fit`. -/
def XC5 : List (List ℕ) := [[1, 1], [1, 0], [1, 0], [0, 0], [0, 1]]

def yC5 : List ℕ := [1, 1, 0, 0, 0]

/-- Dataset where `delete([0, 3])` empties the left branch of the root's
split feature, triggering the hanging-branch rebuild `2a_0`. -/
def XC9 : List (List ℕ) := [[1, 0], [0, 1], [0, 0], [1, 1]]

def yC9 : List ℕ := [1, 1, 0, 0]

def stC9 : TreeState :=
  ⟨2, [(0, ([1, 0], 1)), (1, ([0, 1], 1)), (2, ([0, 0], 0)), (3, ([1, 1], 0))],
    .node 0 ⟨4, 2, 1 / 2⟩
      [(0, ⟨⟨2, 1, 1 / 2, 1 / 2, 1 / 2, 1 / 4⟩, ⟨2, 1, 1 / 2, 1 / 2, 1 / 2, 1 / 4⟩, 1 / 2⟩),
       (1, ⟨⟨2, 1, 1 / 2, 1 / 2, 1 / 2, 1 / 4⟩, ⟨2, 1, 1 / 2, 1 / 2, 1 / 2, 1 / 4⟩, 1 / 2⟩)]
      (.node 1 ⟨2, 1, 1 / 2⟩ [(1, ⟨⟨1, 0, 1 / 2, 0, 0, 0⟩, ⟨1, 1, 1 / 2, 1, 0, 0⟩, 0⟩)]
        (.leaf 0 ⟨1, 0, 0⟩ 0 [3]) (.leaf 1 ⟨1, 1, 0⟩ 1 [0]))
      (.node 1 ⟨2, 1, 1 / 2⟩ [(1, ⟨⟨1, 1, 1 / 2, 1, 0, 0⟩, ⟨1, 0, 1 / 2, 0, 0, 0⟩, 0⟩)]
        (.leaf 1 ⟨1, 1, 0⟩ 1 [1]) (.leaf 0 ⟨1, 0, 0⟩ 0 [2]))⟩

/-- Dataset where `delete([0, 1])` removes every row with feature 1 set,
invalidating feature 1 at the root while the current split feature 0
survives, so the divergence test must fire with tag `2b_0`. -/
def XC10 : List (List ℕ) := [[1, 1], [0, 1], [1, 0], [1, 0], [0, 0], [0, 0]]

def yC10 : List ℕ := [1, 0, 1, 1, 0, 0]

def stC10 : TreeState :=
  ⟨2, [(0, ([1, 1], 1)), (1, ([0, 1], 0)), (2, ([1, 0], 1)), (3, ([1, 0], 1)),
       (4, ([0, 0], 0)), (5, ([0, 0], 0))],
    .node 0 ⟨6, 3, 1 / 2⟩
      [(0, ⟨⟨3, 3, 1 / 2, 1, 0, 0⟩, ⟨3, 0, 1 / 2, 0, 0, 0⟩, 0⟩),
       (1, ⟨⟨2, 1, 1 / 3, 1 / 2, 1 / 2, 1 / 6⟩, ⟨4, 2, 2 / 3, 1 / 2, 1 / 2, 1 / 3⟩, 1 / 2⟩)]
      (.leaf 1 ⟨3, 3, 0⟩ 1 [0, 2, 3]) (.leaf 0 ⟨3, 0, 0⟩ 0 [1, 4, 5])⟩

deriving instance DecidableEq for Except

/-- The successor state of a successful `delete`. -/
def resState (res : Except (Err × TreeState) (TreeState × List String)) : Option TreeState :=
  match res with | .ok (s, _) => some s | .error _ => none

/-- The caller-visible state after `delete` escapes with an exception. -/
def errState (res : Except (Err × TreeState) (TreeState × List String)) : Option TreeState :=
  match res with | .error (_, s) => some s | .ok _ => none

/-- The exception `delete` escaped with, if any. -/
def errCode (res : Except (Err × TreeState) (TreeState × List String)) : Option Err :=
  match res with | .error (e, _) => some e | .ok _ => none

/-- The node-level statistics of a node. -/
def rootStats : DNode → NodeStats
  | .leaf _ st _ _ => st
  | .node _ st _ _ _ => st

/-- The cached `gini_index` of feature `i` at an internal node. -/
def attrGini (t : DNode) (i : ℕ) : Option ℚ :=
  match t with
  | .node _ _ attr _ _ => (attr.lookup i).map SplitRec.gini_index
  | .leaf _ _ _ _ => none

/-- Number of decision nodes of a tree. -/
def internalCount : DNode → ℕ
  | .leaf _ _ _ _ => 0
  | .node _ _ _ l r => 1 + internalCount l + internalCount r

/-- The batch rows `delete([0, 3])` fetches on `stC9`. -/
def batch9 : List TRow := [⟨[1, 0], 1, 0⟩, ⟨[1, 1], 0, 3⟩]

/-- The remaining rows gathered for the `2a_0` rebuild on `stC9`. -/
def rows9 : List TRow := [⟨[0, 1], 1, 1⟩, ⟨[0, 0], 0, 2⟩]

/-- The subtree that rebuild produces on `rows9`. -/
def rebuilt9 : DNode :=
  .node 1 ⟨2, 1, 1 / 2⟩ [(1, ⟨⟨1, 1, 1 / 2, 1, 0, 0⟩, ⟨1, 0, 1 / 2, 0, 0, 0⟩, 0⟩)]
    (.leaf 1 ⟨1, 1, 0⟩ 1 [1]) (.leaf 0 ⟨1, 0, 0⟩ 0 [2])

/-- The root split cache of `stC10`. -/
def attr10 : List (ℕ × SplitRec) :=
  [(0, ⟨⟨3, 3, 1 / 2, 1, 0, 0⟩, ⟨3, 0, 1 / 2, 0, 0, 0⟩, 0⟩),
   (1, ⟨⟨2, 1, 1 / 3, 1 / 2, 1 / 2, 1 / 6⟩, ⟨4, 2, 2 / 3, 1 / 2, 1 / 2, 1 / 3⟩, 1 / 2⟩)]

/-- The batch rows `delete([0, 1])` fetches on `stC10` (all rows with
feature 1 set, so feature 1 of the root cache is invalidated). -/
def batch10 : List TRow := [⟨[1, 1], 1, 0⟩, ⟨[0, 1], 0, 1⟩]

/-- The remaining rows gathered for the `2b_0` rebuild on `stC10`. -/
def rows10 : List TRow :=
  [⟨[1, 0], 1, 2⟩, ⟨[1, 0], 1, 3⟩, ⟨[0, 0], 0, 4⟩, ⟨[0, 0], 0, 5⟩]

/-- The subtree that rebuild produces on `rows10`. -/
def rebuilt10 : DNode :=
  .node 0 ⟨4, 2, 1 / 2⟩ [(0, ⟨⟨2, 2, 1 / 2, 1, 0, 0⟩, ⟨2, 0, 1 / 2, 0, 0, 0⟩, 0⟩)]
    (.leaf 1 ⟨2, 2, 0⟩ 1 [2, 3]) (.leaf 0 ⟨2, 0, 0⟩ 0 [4, 5])

/-- The invariant a fitted tree maintains, relative to the multiset of its
training rows: the split-statistics invariant at every node, no feature
reuse on any path, duplicate-free keys, and a row store that holds exactly
those rows. -/
def TreeInv (s : TreeState) (rows : Multiset TRow) : Prop :=
  WF s.root rows ∧ PathOK s.root ∧ (rows.map TRow.key).Nodup ∧
  StoreOK s.store rows ∧ (↑(s.store.map Prod.fst) : Multiset ℕ) = rows.map TRow.key

/-- The state after `delete([0])` on the scenario-A tree. -/
def stC7after : TreeState :=
  ⟨2, [(1, ([1, 1], 1)), (2, ([0, 1], 0)), (3, ([0, 0], 0))],
    .node 0 ⟨3, 1, round8 (4 / 9)⟩
      [(0, ⟨⟨1, 1, 1 / 3, 1, 0, 0⟩, ⟨2, 0, 1 / 2, 0, 0, 0⟩, 0⟩),
       (1, ⟨⟨2, 1, 1 / 2, 1 / 2, 1 / 2, 1 / 4⟩, ⟨1, 0, 1 / 3, 0, 0, 0⟩, 1 / 4⟩)]
      (.leaf 1 ⟨1, 1, 0⟩ 1 [1]) (.leaf 0 ⟨2, 0, 0⟩ 0 [2, 3])⟩

def stripT : DNode → DNode
  | .leaf v st lv _ => .leaf v st lv []
  | .node f st attr l r => .node f st attr (stripT l) (stripT r)

/-- The state `delete([0, 3])` leaves on `stC9`: the root was rebuilt from
the two surviving rows. -/
def stC9after : TreeState :=
  ⟨2, [(1, ([0, 1], 1)), (2, ([0, 0], 0))], rebuilt9⟩

/-!  ## Theorems  -/

/-!  ### Helper lemmas  -/

theorem lookup_some_of_mem_keys {β : Type} (a : ℕ) (l : List (ℕ × β))
    (h : a ∈ l.map Prod.fst) : ∃ b, l.lookup a = some b := by
  induction l with
  | nil => simp at h
  | cons e t ih =>
    by_cases he : a = e.1
    · refine ⟨e.2, ?_⟩
      rw [List.lookup]
      have hbe : (a == e.1) = true := beq_iff_eq.mpr he
      simp only [hbe]
    · have hmem : a ∈ t.map Prod.fst := by
        simp only [List.map_cons, List.mem_cons] at h
        exact h.resolve_left he
      obtain ⟨b, hb⟩ := ih hmem
      refine ⟨b, ?_⟩
      rw [List.lookup]
      have hbe : (a == e.1) = false := beq_eq_false_iff_ne.mpr he
      simp only [hbe]
      exact hb

theorem mem_of_lookup_some {β : Type} {a : ℕ} {b : β} {l : List (ℕ × β)}
    (h : l.lookup a = some b) : (a, b) ∈ l := by
  induction l with
  | nil => simp [List.lookup] at h
  | cons e t ih =>
    rw [List.lookup] at h
    by_cases he : a = e.1
    · have hbe : (a == e.1) = true := beq_iff_eq.mpr he
      simp only [hbe] at h
      injection h with h2
      rw [he, ← h2]
      exact List.mem_cons_self e t
    · have hbe : (a == e.1) = false := beq_eq_false_iff_ne.mpr he
      simp only [hbe] at h
      exact List.mem_cons_of_mem _ (ih h)

theorem zip_self {α : Type} (l : List α) : l.zip l = l.map (fun a => (a, a)) := by
  induction l with
  | nil => rfl
  | cons a t ih => simp [List.zip_cons_cons, ih]

/-- The divergence test never fires when old and new probability vectors
coincide entrywise on nonzero entries, given `1 ≤ ef ε` and `ef (-ε) ≤ 1`
(true of `np.exp` for `ε ≥ 0`). -/
theorem divergent_self (P : Params) (l : List ℚ) (h0 : ∀ v ∈ l, v ≠ 0)
    (h1 : 1 ≤ P.ef P.epsilon) (h2 : P.ef (-P.epsilon) ≤ 1) :
    divergent P l l = false := by
  rw [divergent, zip_self]
  rw [List.any_eq_false]
  intro q hq
  rw [List.mem_map] at hq
  obtain ⟨a, ha, rfl⟩ := hq
  have hv := h0 a ha
  simp only [Bool.or_eq_true, decide_eq_true_iff]
  rw [div_self hv]
  rintro (hcon | hcon)
  · exact absurd hcon (not_lt.mpr h1)
  · exact absurd hcon (not_lt.mpr h2)

/-- Inversion for a cached split record: its branch counts are the true
branch sizes, both positive, and its `gini_index` is the cached
`_compute_gini_index` of its two branch records. -/
theorem splitRecFor_some (rows : List TRow) (i : ℕ) (rec : SplitRec)
    (h : splitRecFor rows i = some rec) :
    rec.left.count = ((rows.filter (xAt i)).length : ℤ) ∧
    rec.right.count = ((rows.length - (rows.filter (xAt i)).length : ℕ) : ℤ) ∧
    0 < rec.left.count ∧ 0 < rec.right.count ∧
    rec.gini_index = computeGiniIndex rec.left rec.right := by
  rw [splitRecFor] at h
  split at h
  case isTrue hc =>
    injection h with h2
    subst h2
    refine ⟨rfl, rfl, ?_, ?_, rfl⟩
    · show (0:ℤ) < ((rows.filter (xAt i)).length : ℤ)
      exact_mod_cast hc.1
    · show (0:ℤ) < ((rows.length - (rows.filter (xAt i)).length : ℕ) : ℤ)
      exact_mod_cast hc.2
  case isFalse hc =>
    simp at h

/-- Inversion of `_build_tree` producing a leaf: the stored fields are
exactly the leaf construction of tree.py:157-165, and at depth 0 the node
is not mono-class (tree.py:146-148 would have raised). -/
theorem buildT_leaf_inv (P : Params) (F fuel : ℕ) (rows : List TRow) (depth : ℕ)
    (v : ℚ) (st : NodeStats) (lv : ℚ) (idx : List ℕ) (sc : ℕ)
    (h : buildT P F (fuel + 1) rows depth = .ok (.leaf v st lv idx, sc)) :
    st = ⟨(rows.length : ℤ), ((rows.map TRow.yv).sum : ℤ),
      round8 (1 - (((rows.map TRow.yv).sum : ℚ) / (rows.length : ℚ)) ^ 2 -
        ((((rows.length : ℤ) - ((rows.map TRow.yv).sum : ℤ) : ℤ) : ℚ) / (rows.length : ℚ)) ^ 2)⟩ ∧
    v = ((rows.map TRow.yv).sum : ℚ) / (rows.length : ℚ) ∧
    lv = (if (rows.map TRow.yv).sum = 0 then 0
      else ((rows.map TRow.yv).sum : ℚ) / (rows.length : ℚ)) ∧
    idx = rows.map TRow.key ∧
    rows.length ≠ 0 ∧
    (depth = 0 → ¬ ((rows.map TRow.yv).sum = 0 ∨ (rows.map TRow.yv).sum = rows.length)) := by
  rw [buildT] at h
  split at h
  · simp at h
  · split at h
    · simp at h
    · split at h
      · injection h with h2
        injection h2 with h3 h4
        injection h3 with e1 e2 e3 e4
        subst e1; subst e2; subst e3; subst e4
        refine ⟨rfl, rfl, rfl, rfl, ?_, ?_⟩
        · rename_i hn _ _
          exact hn
        · rename_i hnd _
          intro hd hm
          exact hnd ⟨hm, hd⟩
      · dsimp only at h
        split at h
        · simp at h
        · split at h <;> simp at h

/-- Inversion of `_build_tree` producing a decision node: the stored stats,
cache, chosen feature and children correspond to tree.py:167-247, the node
is not mono-class, and the candidate cache is nonempty. -/
theorem buildT_node_inv (P : Params) (F fuel : ℕ) (rows : List TRow) (depth : ℕ)
    (f : ℕ) (st : NodeStats) (attr : List (ℕ × SplitRec)) (l r : DNode) (sc : ℕ)
    (h : buildT P F (fuel + 1) rows depth = .ok (.node f st attr l r, sc)) :
    st = ⟨(rows.length : ℤ), ((rows.map TRow.yv).sum : ℤ),
      round8 (1 - (((rows.map TRow.yv).sum : ℚ) / (rows.length : ℚ)) ^ 2 -
        ((((rows.length : ℤ) - ((rows.map TRow.yv).sum : ℤ) : ℤ) : ℚ) / (rows.length : ℚ)) ^ 2)⟩ ∧
    attr = (List.range F).filterMap
      (fun i => (splitRecFor rows i).map (fun s2 => (i, s2))) ∧
    f = P.chooser (attr.map Prod.fst)
      (normalize ((attr.map (fun c => c.2.gini_index)).map (softWeight P))) ∧
    attr ≠ [] ∧
    ¬ ((rows.map TRow.yv).sum = 0 ∨ (rows.map TRow.yv).sum = rows.length) ∧
    (∃ sl, buildT P F fuel (rows.filter (xAt f)) (depth + 1) = .ok (l, sl)) ∧
    (∃ sr, buildT P F fuel (rows.filter (fun row => !(xAt f row))) (depth + 1) = .ok (r, sr)) := by
  rw [buildT] at h
  split at h
  · simp at h
  · split at h
    · simp at h
    · split at h
      · simp at h
      · dsimp only at h
        split at h
        · simp at h
        · rename_i hnm hleaf hne
          split at h
          case _ l2 sl r2 sr heql heqr =>
            injection h with h2
            injection h2 with h3 h4
            injection h3 with e1 e2 e3 e4 e5
            subst e1; subst e2; subst e3; subst e4; subst e5
            refine ⟨rfl, rfl, rfl, ?_, ?_, ⟨sl, heql⟩, ⟨sr, heqr⟩⟩
            · intro hattr
              rw [hattr] at hne
              simp at hne
            · intro hm
              exact hleaf (Or.inr (Or.inr (Or.inr hm)))
          case _ => simp at h
          case _ => simp at h

theorem removeElements_eq_filter (l es : List ℕ) (hs : l.Sorted (· ≤ ·)) (hn : l.Nodup) :
    removeElements l es = l.filter (fun a => !(es.contains a)) := by
  rw [removeElements, List.dedup_eq_self.mpr (hn.filter _)]
  exact List.Sorted.insertionSort_eq (hs.filter _)

theorem filter_keep_nil {α : Type} (g : α → ℕ) (l : List α) :
    l.filter (fun a => !(([] : List ℕ).contains (g a))) = l := by
  induction l with
  | nil => rfl
  | cons a t ih => simp [List.filter, ih]

theorem sorted_le_range (n : ℕ) : (List.range n).Sorted (· ≤ ·) :=
  (List.pairwise_lt_range n).imp le_of_lt

theorem removeElements_range_nil (n : ℕ) :
    removeElements (List.range n) [] = List.range n := by
  rw [removeElements_eq_filter _ _ (sorted_le_range n) (List.nodup_range n)]
  exact filter_keep_nil id (List.range n)

theorem mkRows_map_key (X : List (List ℕ)) (y : List ℕ) (ks : List ℕ)
    (hxy : X.length = y.length) (hk : X.length = ks.length) :
    (mkRows X y ks).map TRow.key = ks := by
  induction X generalizing y ks with
  | nil =>
    cases ks with
    | nil => rfl
    | cons k kt => simp at hk
  | cons x xt ih =>
    cases y with
    | nil => simp at hxy
    | cons y0 yt =>
      cases ks with
      | nil => simp at hk
      | cons k kt =>
        show k :: (mkRows xt yt kt).map TRow.key = k :: kt
        rw [ih yt kt (by simpa using hxy) (by simpa using hk)]

theorem normalize_pos (l : List ℚ) (hl : ∀ w ∈ l, 0 < w) (hne : l ≠ []) :
    ∀ v ∈ normalize l, 0 < v := by
  intro v hv
  rw [normalize, List.mem_map] at hv
  obtain ⟨w, hw, rfl⟩ := hv
  exact div_pos (hl w hw) (List.sum_pos l hl hne)

/-- The per-feature pass of `_delete` on an empty batch touches nothing: it
recomputes and re-stores the cached `gini_index` and keeps the entry. -/
theorem procAttr_nil (c : ℤ) (e : ℕ × SplitRec)
    (hc : e.2.gini_index = computeGiniIndex e.2.left e.2.right) :
    procAttr c [] e = ⟨false, e.2.gini_index, e.2.gini_index, some e⟩ := by
  obtain ⟨i, lb, rb, g⟩ := e
  simp only at hc
  rw [procAttr]
  simp only [List.filter_nil, List.length_nil, gt_iff_lt, lt_self_iff_false, if_false]
  rw [hc]

/-- `delete([])` on a leaf root: the leaf is rewritten to itself and the
trace is `["1a"]`. -/
theorem deleteT_nil_leaf (P : Params) (F : ℕ) (store : List (ℕ × (List ℕ × ℕ)))
    (v : ℚ) (st : NodeStats) (lv : ℚ) (idx : List ℕ)
    (hv : (if st.pos_count = 0 then (0 : ℚ) else (st.pos_count : ℚ) / (st.count : ℚ)) = v)
    (hlv : lv = v)
    (hidx : removeElements idx [] = idx) :
    deleteT P ⟨F, store, .leaf v st lv idx⟩ []
      = .ok (⟨F, store, .leaf v st lv idx⟩, ["1a"]) := by
  rw [deleteT]
  rw [show getData store ([] : List ℕ) = some [] from rfl]
  simp only [deleteStep]
  simp only [List.map_nil, List.sum_nil, List.length_nil, Nat.cast_zero, sub_zero]
  rw [hv, hidx, filter_keep_nil Prod.fst store, hlv]

/-- C2: on the scenario-A tree, deleting the two positive rows makes the
root mono-class, so `delete` raises DegenerateRoot — but the caller-visible
state is not the pre-call state: the root's cached `count`, `pos_count` and
`gini_data` have already been overwritten (tree.py:321-328 run before the
check at tree.py:335-337), changing them from (4, 2, 0.5) to (2, 0, 0.0).
Only the row store is unchanged. -/
theorem c2_degenerate_root_mutates_stats :
    errCode (deleteT PA stA [0, 1]) = some .degenerateRoot ∧
    (errState (deleteT PA stA [0, 1])).map TreeState.store = some stA.store ∧
    (errState (deleteT PA stA [0, 1])).map (fun s => rootStats s.root) = some ⟨2, 0, 0⟩ ∧
    rootStats stA.root = ⟨4, 2, 1 / 2⟩ ∧
    ((⟨2, 0, 0⟩ : NodeStats) ≠ ⟨4, 2, 1 / 2⟩) :=
  ⟨by with_unfolding_all rfl, by with_unfolding_all rfl, by with_unfolding_all rfl,
   by with_unfolding_all rfl, of_decide_eq_true (by with_unfolding_all rfl)⟩

/-- C3: after the successful `delete([0])` on the six-row single-feature
tree (trace `["1a"]`, no rebuild), the root still caches
`gini_index = 0.43333333` for feature 0, while the weighted Gini index
computed from scratch over the five rows now routed to the root is
`0.46666667`: `_update_decision_node` never refreshes the weight of a
branch that received no removed rows (tree.py:518-522 is commented out). -/
theorem c3_stale_gini_index_after_delete :
    fitT PA XC3 yC3 = .ok stC3 ∧
    deleteT PA stC3 [0] = .ok (stC3after, ["1a"]) ∧
    attrGini stC3after.root 0 = some (round8 (13 / 30)) ∧
    ((getData stC3after.store (gatherIndices stC3after.root)).map (fun rows =>
        (splitRecFor rows 0).map SplitRec.gini_index))
      = some (some (round8 (7 / 15))) ∧
    round8 (13 / 30) ≠ round8 (7 / 15) :=
  ⟨by with_unfolding_all rfl, by with_unfolding_all rfl, by with_unfolding_all rfl,
   by with_unfolding_all rfl, of_decide_eq_true (by with_unfolding_all rfl)⟩

/-- C5: `fit` does not seed the pseudo-random source once at its top:
`np.random.seed(random_state)` runs inside `_build_tree` (tree.py:237),
once per decision node. On `XC5`/`yC5` the fitted tree has two decision
nodes and `fit` performs two seed calls, not one. -/
theorem c5_seed_calls_per_decision_node :
    fitSeedCalls PA XC5 yC5 = .ok 2 ∧
    (fitT PA XC5 yC5).map (fun s => internalCount s.root) = .ok 2 ∧
    (2 : ℕ) ≠ 1 :=
  ⟨by with_unfolding_all rfl, by with_unfolding_all rfl, by decide⟩

/-- C6: whenever `_delete` updates an internal node's node-level
statistics, the stored `gini_data` equals
`round8 (1 − (pos/count)² − ((count − pos)/count)²)` computed from the
updated `count` and `pos_count` — although the code computes the second
numerator as `pos_count - count`, squaring makes the value identical. -/
theorem c6_gini_data_formula (st : NodeStats) (batch : List TRow) :
    (deleteNodeStats st batch).gini_data =
      round8 (1 -
        (((st.pos_count - ((batch.map TRow.yv).sum : ℤ)) : ℚ) /
          ((st.count - (batch.length : ℤ)) : ℚ)) ^ 2 -
        ((((st.count - (batch.length : ℤ)) - (st.pos_count - ((batch.map TRow.yv).sum : ℤ))) : ℚ) /
          ((st.count - (batch.length : ℤ)) : ℚ)) ^ 2) := by
  unfold deleteNodeStats
  push_cast
  ring_nf

/-- C8: `copy()` never succeeds on any fitted tree: its first statement
reads `self.min_impurity`, which neither `__init__` (tree.py:63-69) nor
`fit` assigns, so every call raises AttributeError instead of returning a
deep copy. -/
theorem c8_copy_raises_attribute_error (s : TreeState) :
    copyT s = .error "AttributeError: Tree object has no attribute min_impurity" := by
  have h : ¬ ("min_impurity" ∈ fittedTreeAttrs) := by decide
  simp [copyT, h]

/-- C4, counterexample: on a fitted tree whose root is a leaf, `delete`
with an empty batch leaves the state unchanged but returns the trace
`["1a"]`, not the empty list the claim requires. -/
theorem c4_counterexample :
    fitT PA3 XC4 yC4 = .ok stC4 ∧
    deleteT PA3 stC4 [] = .ok (stC4, ["1a"]) ∧
    (["1a"] : List String) ≠ ([] : List String) :=
  ⟨by with_unfolding_all rfl, by with_unfolding_all rfl, by decide⟩

/-- C1, counterexample: with `min_samples_split = 4`, `fit` on `XC1`/`yC1`
splits the root; `delete([2])` keeps that split (trace `["1a"]`) although
only 3 rows remain, while `fit` on the reduced dataset stops at a root leaf
(3 < 4), so the two `predict_proba` outputs differ on the sample `[1]`:
(0.5, 0.5) against (2/3, 1/3) — for any draw function, since every involved
candidate list is a singleton. -/
theorem c1_counterexample :
    fitT PA4 XC1 yC1 = .ok stC1 ∧
    (deleteT PA4 stC1 [2]).map (fun p => (p.2, predictProba p.1.root [[1]]))
      = .ok (["1a"], [(1 / 2, 1 / 2)]) ∧
    (fitT PA4 (reducedX XC1 [2]) (reducedY XC1 yC1 [2])).map
      (fun s => predictProba s.root [[1]]) = .ok [(2 / 3, 1 / 3)] ∧
    ((1 / 2 : ℚ), (1 / 2 : ℚ)) ≠ (2 / 3, 1 / 3) :=
  ⟨by with_unfolding_all rfl, by with_unfolding_all rfl, by with_unfolding_all rfl,
   of_decide_eq_true (by with_unfolding_all rfl)⟩

/-- `String.append` concatenates the character data. -/
theorem data_of_append (a b : String) : (a ++ b).data = a.data ++ b.data := rfl

/-- The `2b_<d>` and `2c_<d>` trace tags are distinct. -/
theorem tag2b_ne_tag2c (s : String) : ("2b_" ++ s) ≠ "2c_" ++ s := by
  intro h
  have h2 := congrArg String.data h
  rw [data_of_append, data_of_append] at h2
  simp at h2

theorem length_normalize (l : List ℚ) : (normalize l).length = l.length := by
  simp [normalize]

/-- If some feature was invalidated, the divergence test necessarily fires:
the invalid entry's new probability is 0 while its old probability is
positive (softmax weights are positive), so their ratio 0 lies below
`ef (-epsilon) > 0`. -/
theorem divergent_of_invalid (P : Params) (hP : efPos P) (steps : List AttrStep)
    (hsome : steps.any AttrStep.invalid = true) :
    divergent P
      (normalize (steps.map (fun s => if s.invalid then 0 else softWeight P s.newG)))
      (normalize ((steps.map AttrStep.oldG).map (softWeight P))) = true := by
  obtain ⟨s0, hmem, hinv⟩ := List.any_eq_true.mp hsome
  obtain ⟨j, hj, hget⟩ := List.mem_iff_getElem.mp hmem
  set l2 := steps.map (fun s => if s.invalid then 0 else softWeight P s.newG) with hl2
  set l1 := (steps.map AttrStep.oldG).map (softWeight P) with hl1
  have hj2 : j < (normalize l2).length := by
    rw [length_normalize]; simpa [hl2] using hj
  have hj1 : j < (normalize l1).length := by
    rw [length_normalize]; simpa [hl1] using hj
  have hjz : j < ((normalize l2).zip (normalize l1)).length := by
    rw [List.length_zip]; omega
  have hv2 : ((normalize l2).zip (normalize l1))[j].1 = 0 := by
    rw [List.getElem_zip]
    simp only [normalize, hl2, List.getElem_map, hget, hinv, if_pos]
    simp
  have hpos : 0 < (normalize l1)[j] := by
    have hsum : 0 < l1.sum := by
      apply List.sum_pos
      · intro x hx
        simp only [hl1, List.map_map, List.mem_map] at hx
        obtain ⟨a, _, rfl⟩ := hx
        exact hP _
      · intro hnil
        rw [hl1] at hnil
        simp only [List.map_map, List.map_eq_nil_iff] at hnil
        subst hnil
        simp at hj
    have hjl : j < l1.length := by simpa [hl1] using hj
    have hval : (normalize l1)[j] = l1[j] / l1.sum := by
      simp [normalize]
    rw [hval]
    apply div_pos
    · have hup : l1[j] = softWeight P (steps[j].oldG) := by
        simp [hl1]
      rw [hup]
      exact hP _
    · exact hsum
  have hv1 : ((normalize l2).zip (normalize l1))[j].2 = (normalize l1)[j] := by
    rw [List.getElem_zip]
  rw [divergent, List.any_eq_true]
  refine ⟨((normalize l2).zip (normalize l1))[j], List.getElem_mem hjz, ?_⟩
  rw [Bool.or_eq_true]
  right
  rw [decide_eq_true_iff]
  rw [hv2, hv1]
  rw [zero_div]
  exact hP _

/-- C9: at an internal node that passes the degeneracy, mono-class and
attribute-lookup steps, if subtracting the batch rows routed to either
branch of the node's current split feature would leave that branch with
`count ≤ 0`, then `_delete` gathers all remaining keys under the node,
fetches their rows from the row store, rebuilds the subtree with
`_build_tree` at the current depth, and returns the new subtree with the
single trace tag `2a_<depth>`. -/
theorem c9_hanging_branch_rebuild (P : Params) (F : ℕ)
    (store : List (ℕ × (List ℕ × ℕ)))
    (f : ℕ) (st : NodeStats) (attr : List (ℕ × SplitRec)) (l r : DNode)
    (batch : List TRow) (depth : ℕ) (frec : SplitRec) (rows2 : List TRow)
    (t2 : DNode) (sc : ℕ)
    (hMono : ¬ ((deleteNodeStats st batch).pos_count = 0 ∨
      (deleteNodeStats st batch).pos_count = (deleteNodeStats st batch).count))
    (hLook : attr.lookup f = some frec)
    (hHang : frec.left.count - ((batch.filter (xAt f)).length : ℤ) ≤ 0 ∨
      frec.right.count - ((batch.filter (fun row => !(xAt f row))).length : ℤ) ≤ 0)
    (hGet : getData store (removeElements
      (gatherIndices (.node f (deleteNodeStats st batch) attr l r))
      (batch.map TRow.key)) = some rows2)
    (hBuild : buildT P F (P.maxDepth + 1 - depth) rows2 depth = .ok (t2, sc)) :
    deleteStep P F store (.node f st attr l r) batch depth
      = .ok (t2, ["2a_" ++ Nat.repr depth]) := by
  rw [deleteStep]
  rw [if_neg (fun h => hMono h.2)]
  rw [if_neg hMono]
  rw [hLook]
  simp only [if_pos hHang, hGet, hBuild]

/-- Witness for C9: on the fitted `stC9`, the batch `[0, 3]` empties the
left branch of the root's split feature 0; `_delete` rebuilds from the
remaining rows at depth 0 and returns trace `["2a_0"]`. -/
theorem c9_witness :
    (¬ ((deleteNodeStats ⟨4, 2, 1 / 2⟩ batch9).pos_count = 0 ∨
      (deleteNodeStats ⟨4, 2, 1 / 2⟩ batch9).pos_count =
        (deleteNodeStats ⟨4, 2, 1 / 2⟩ batch9).count)) ∧
    deleteStep PA 2 stC9.store stC9.root batch9 0
      = .ok (rebuilt9, ["2a_" ++ Nat.repr 0]) :=
  ⟨by decide,
   c9_hanging_branch_rebuild PA 2 stC9.store 0 ⟨4, 2, 1 / 2⟩
    [(0, ⟨⟨2, 1, 1 / 2, 1 / 2, 1 / 2, 1 / 4⟩, ⟨2, 1, 1 / 2, 1 / 2, 1 / 2, 1 / 4⟩, 1 / 2⟩),
     (1, ⟨⟨2, 1, 1 / 2, 1 / 2, 1 / 2, 1 / 4⟩, ⟨2, 1, 1 / 2, 1 / 2, 1 / 2, 1 / 4⟩, 1 / 2⟩)]
    (.node 1 ⟨2, 1, 1 / 2⟩ [(1, ⟨⟨1, 0, 1 / 2, 0, 0, 0⟩, ⟨1, 1, 1 / 2, 1, 0, 0⟩, 0⟩)]
      (.leaf 0 ⟨1, 0, 0⟩ 0 [3]) (.leaf 1 ⟨1, 1, 0⟩ 1 [0]))
    (.node 1 ⟨2, 1, 1 / 2⟩ [(1, ⟨⟨1, 1, 1 / 2, 1, 0, 0⟩, ⟨1, 0, 1 / 2, 0, 0, 0⟩, 0⟩)]
      (.leaf 1 ⟨1, 1, 0⟩ 1 [1]) (.leaf 0 ⟨1, 0, 0⟩ 0 [2]))
    batch9 0
    ⟨⟨2, 1, 1 / 2, 1 / 2, 1 / 2, 1 / 4⟩, ⟨2, 1, 1 / 2, 1 / 2, 1 / 2, 1 / 4⟩, 1 / 2⟩
    rows9 rebuilt9 1
    (by decide) rfl (by decide)
    (by with_unfolding_all rfl) (by with_unfolding_all rfl)⟩

/-- C10: at an internal node that reaches the per-feature update, if any
feature in the cache is invalidated (a branch's count would fall to 0 or
below under the batch), then — because the invalidated feature's new
probability is forced to 0 while its old probability is positive — the
divergence test necessarily fires and the subtree is rebuilt with trace tag
`2b_<depth>`; and the tag `2c_<depth>` can only be produced by this step
when no feature was invalidated. -/
theorem c10_invalid_feature_forces_2b (P : Params) (F : ℕ)
    (store : List (ℕ × (List ℕ × ℕ)))
    (f : ℕ) (st : NodeStats) (attr : List (ℕ × SplitRec)) (l r : DNode)
    (batch : List TRow) (depth : ℕ) (frec : SplitRec) (rows2 : List TRow)
    (t2 : DNode) (sc : ℕ)
    (hP : efPos P)
    (hMono : ¬ ((deleteNodeStats st batch).pos_count = 0 ∨
      (deleteNodeStats st batch).pos_count = (deleteNodeStats st batch).count))
    (hLook : attr.lookup f = some frec)
    (hNoHang : ¬ (frec.left.count - ((batch.filter (xAt f)).length : ℤ) ≤ 0 ∨
      frec.right.count - ((batch.filter (fun row => !(xAt f row))).length : ℤ) ≤ 0))
    (hGet : getData store (removeElements
      (gatherIndices (.node f (deleteNodeStats st batch)
        ((attr.map (procAttr (deleteNodeStats st batch).count batch)).filterMap AttrStep.entry)
        l r))
      (batch.map TRow.key)) = some rows2)
    (hBuild : buildT P F (P.maxDepth + 1 - depth) rows2 depth = .ok (t2, sc)) :
    ((attr.map (procAttr (deleteNodeStats st batch).count batch)).any AttrStep.invalid = true →
      deleteStep P F store (.node f st attr l r) batch depth
        = .ok (t2, ["2b_" ++ Nat.repr depth])) ∧
    (∀ t3 tr, deleteStep P F store (.node f st attr l r) batch depth = .ok (t3, tr) →
      ("2c_" ++ Nat.repr depth) ∈ tr →
      (attr.map (procAttr (deleteNodeStats st batch).count batch)).any AttrStep.invalid
        = false) := by
  have key : (attr.map (procAttr (deleteNodeStats st batch).count batch)).any
      AttrStep.invalid = true →
      deleteStep P F store (.node f st attr l r) batch depth
        = .ok (t2, ["2b_" ++ Nat.repr depth]) := by
    intro hInv
    have hdiv := divergent_of_invalid P hP
      (attr.map (procAttr (deleteNodeStats st batch).count batch)) hInv
    rw [deleteStep]
    rw [if_neg (fun h => hMono h.2), if_neg hMono, hLook]
    simp only [if_neg hNoHang, hdiv, if_true, hInv, hGet, hBuild]
  refine ⟨key, ?_⟩
  intro t3 tr hstep hmem
  by_cases hInv2 : (attr.map (procAttr (deleteNodeStats st batch).count batch)).any
      AttrStep.invalid = true
  · rw [key hInv2] at hstep
    have htr : tr = ["2b_" ++ Nat.repr depth] := by
      injection hstep with h1
      exact (congrArg Prod.snd h1).symm
    rw [htr] at hmem
    rw [List.mem_singleton] at hmem
    exact absurd hmem.symm (tag2b_ne_tag2c (Nat.repr depth))
  · simpa using hInv2

/-- Witness for C10: on the fitted `stC10`, the batch `[0, 1]` removes every
row with feature 1 set; feature 1 of the root cache is invalidated, the
divergence test fires, and `_delete` rebuilds at depth 0 with trace
`["2b_0"]`. -/
theorem c10_witness :
    (attr10.map (procAttr (deleteNodeStats ⟨6, 3, 1 / 2⟩ batch10).count batch10)).any
      AttrStep.invalid = true ∧
    deleteStep PA 2 stC10.store stC10.root batch10 0
      = .ok (rebuilt10, ["2b_" ++ Nat.repr 0]) := by
  have hInv : (attr10.map (procAttr (deleteNodeStats ⟨6, 3, 1 / 2⟩ batch10).count
      batch10)).any AttrStep.invalid = true := by with_unfolding_all rfl
  refine ⟨hInv, ?_⟩
  exact (c10_invalid_feature_forces_2b PA 2 stC10.store 0 ⟨6, 3, 1 / 2⟩ attr10
    (.leaf 1 ⟨3, 3, 0⟩ 1 [0, 2, 3]) (.leaf 0 ⟨3, 0, 0⟩ 0 [1, 4, 5])
    batch10 0 ⟨⟨3, 3, 1 / 2, 1, 0, 0⟩, ⟨3, 0, 1 / 2, 0, 0, 0⟩, 0⟩
    rows10 rebuilt10 1
    (fun _ => by norm_num [PA, constOne])
    (by decide) rfl (by decide)
    (by with_unfolding_all rfl) (by with_unfolding_all rfl)).1 hInv


theorem deleteT_nil_node (P : Params) (F : ℕ) (store : List (ℕ × (List ℕ × ℕ)))
    (f : ℕ) (st : NodeStats) (attr : List (ℕ × SplitRec)) (l r : DNode)
    (hmono : ¬ (st.pos_count = 0 ∨ st.pos_count = st.count))
    (hgini : round8 (1 - ((st.pos_count : ℚ) / (st.count : ℚ)) ^ 2 -
      (((st.pos_count - st.count : ℤ) : ℚ) / (st.count : ℚ)) ^ 2) = st.gini_data)
    (frec : SplitRec)
    (hlook : attr.lookup f = some frec)
    (hfl : 0 < frec.left.count) (hfr : 0 < frec.right.count)
    (hcache : ∀ e ∈ attr, e.2.gini_index = computeGiniIndex e.2.left e.2.right)
    (hne : attr ≠ [])
    (hef : efPos P) (h1 : 1 ≤ P.ef P.epsilon) (h2 : P.ef (-P.epsilon) ≤ 1) :
    deleteT P ⟨F, store, .node f st attr l r⟩ []
      = .ok (⟨F, store, .node f st attr l r⟩, []) := by
  have hst : deleteNodeStats st [] = st := by
    rw [deleteNodeStats]
    simp only [List.map_nil, List.sum_nil, List.length_nil, Nat.cast_zero, sub_zero]
    rw [hgini]
  rw [deleteT]
  rw [show getData store ([] : List ℕ) = some [] from rfl]
  simp only [deleteStep]
  rw [hst]
  rw [if_neg (fun h => hmono h.2)]
  rw [if_neg hmono]
  rw [hlook]
  simp only [List.filter_nil, List.length_nil, Nat.cast_zero, sub_zero]
  rw [if_neg (fun h => h.elim (fun h3 => absurd h3 (not_le.mpr hfl))
    (fun h3 => absurd h3 (not_le.mpr hfr)))]
  have hsteps : attr.map (procAttr st.count []) =
      attr.map (fun e => (⟨false, e.2.gini_index, e.2.gini_index, some e⟩ : AttrStep)) :=
    List.map_congr_left (fun e he => procAttr_nil st.count e (hcache e he))
  rw [hsteps]
  rw [List.filterMap_map]
  rw [show (AttrStep.entry ∘ fun e : ℕ × SplitRec =>
      (⟨false, e.2.gini_index, e.2.gini_index, some e⟩ : AttrStep)) = some ∘ id from rfl]
  rw [List.filterMap_eq_map, List.map_id]
  rw [List.map_map, List.map_map, List.map_map]
  have hfun1 : ((softWeight P ∘ AttrStep.oldG) ∘ fun e : ℕ × SplitRec =>
      (⟨false, e.2.gini_index, e.2.gini_index, some e⟩ : AttrStep))
      = fun e : ℕ × SplitRec => softWeight P e.2.gini_index := rfl
  have hfun2 : ((fun s : AttrStep => if s.invalid then (0 : ℚ) else softWeight P s.newG) ∘
      fun e : ℕ × SplitRec => (⟨false, e.2.gini_index, e.2.gini_index, some e⟩ : AttrStep))
      = fun e : ℕ × SplitRec => softWeight P e.2.gini_index := by
    funext e
    simp
  rw [hfun1, hfun2]
  have hposL : ∀ w ∈ attr.map (fun e : ℕ × SplitRec => softWeight P e.2.gini_index), 0 < w := by
    intro w hw
    rw [List.mem_map] at hw
    obtain ⟨e, _, rfl⟩ := hw
    exact hef _
  have hneL : attr.map (fun e : ℕ × SplitRec => softWeight P e.2.gini_index) ≠ [] := by
    intro hc
    rw [List.map_eq_nil_iff] at hc
    exact hne hc
  rw [divergent_self P _ (fun v hv => ne_of_gt (normalize_pos _ hposL hneL v hv)) h1 h2]
  simp only [Bool.false_eq_true, if_false, lt_self_iff_false, gt_iff_lt]
  rw [filter_keep_nil Prod.fst store]

theorem cast_div_nat (p n : ℕ) :
    ((p : ℤ) : ℚ) / ((n : ℤ) : ℚ) = (p : ℚ) / (n : ℚ) := by
  push_cast
  ring

theorem round8_gini_swap (p n : ℕ) :
    round8 (1 - (((p : ℤ) : ℚ) / ((n : ℤ) : ℚ)) ^ 2 -
      ((((p : ℤ) - (n : ℤ) : ℤ) : ℚ) / ((n : ℤ) : ℚ)) ^ 2)
      = round8 (1 - ((p : ℚ) / (n : ℚ)) ^ 2 -
        ((((n : ℤ) - (p : ℤ) : ℤ) : ℚ) / (n : ℚ)) ^ 2) := by
  congr 1
  push_cast
  ring

theorem mem_cand_split (F : ℕ) (rows : List TRow) (e : ℕ × SplitRec)
    (h : e ∈ (List.range F).filterMap
      (fun i => (splitRecFor rows i).map (fun s2 => (i, s2)))) :
    splitRecFor rows e.1 = some e.2 := by
  rw [List.mem_filterMap] at h
  obtain ⟨i, _, hi⟩ := h
  rw [Option.map_eq_some'] at hi
  obtain ⟨s2, hs, he⟩ := hi
  subst he
  exact hs

/-- C4 (amended): `delete` with an empty batch of keys leaves a freshly
fitted tree and its row store unchanged, and its trace is `[]` when the
root is an internal node but `["1a"]` when the root is a leaf. -/
theorem c4_empty_delete_noop (P : Params) (X : List (List ℕ)) (y : List ℕ)
    (s : TreeState)
    (hxy : X.length = y.length)
    (hch : chooserValid P) (hef : efPos P)
    (h1 : 1 ≤ P.ef P.epsilon) (h2 : P.ef (-P.epsilon) ≤ 1)
    (hfit : fitT P X y = .ok s) :
    deleteT P s [] = .ok (s, emptyBatchTrace s.root) := by
  rw [fitT] at hfit
  cases hb : buildT P ((X.headD []).length) (P.maxDepth + 1)
      (mkRows X y (List.range X.length)) 0 with
  | error e =>
    rw [hb] at hfit
    simp only [Except.map] at hfit
    exact absurd hfit (by simp)
  | ok t =>
    rw [hb] at hfit
    obtain ⟨root, sc⟩ := t
    simp only [Except.map] at hfit
    injection hfit with hfit
    subst hfit
    cases root with
    | leaf v st lv idx =>
      obtain ⟨hst, hv0, hlv0, hidx0, hn0, _⟩ :=
        buildT_leaf_inv P ((X.headD []).length) P.maxDepth
          (mkRows X y (List.range X.length)) 0 v st lv idx sc hb
      have hpc : st.pos_count =
          ((((mkRows X y (List.range X.length)).map TRow.yv).sum : ℕ) : ℤ) := by rw [hst]
      have hcc : st.count = (((mkRows X y (List.range X.length)).length : ℕ) : ℤ) := by
        rw [hst]
      have hv : (if st.pos_count = 0 then (0 : ℚ)
          else (st.pos_count : ℚ) / (st.count : ℚ)) = v := by
        rw [hpc, hcc, hv0]
        by_cases hp : ((mkRows X y (List.range X.length)).map TRow.yv).sum = 0
        · rw [hp]
          simp
        · rw [if_neg (by exact_mod_cast hp)]
          exact cast_div_nat _ _
      have hlv : lv = v := by
        rw [hlv0, hv0]
        by_cases hp : ((mkRows X y (List.range X.length)).map TRow.yv).sum = 0
        · rw [if_pos hp, hp]
          simp
        · rw [if_neg hp]
      have hidx : removeElements idx [] = idx := by
        rw [hidx0, mkRows_map_key X y (List.range X.length) hxy
          (List.length_range X.length).symm]
        exact removeElements_range_nil X.length
      exact deleteT_nil_leaf P ((X.headD []).length) (storeOf X y) v st lv idx hv hlv hidx
    | node f st attr l r =>
      obtain ⟨hst, hattr, hf, hne, hm, _, _⟩ :=
        buildT_node_inv P ((X.headD []).length) P.maxDepth
          (mkRows X y (List.range X.length)) 0 f st attr l r sc hb
      have hpc : st.pos_count =
          ((((mkRows X y (List.range X.length)).map TRow.yv).sum : ℕ) : ℤ) := by rw [hst]
      have hcc : st.count = (((mkRows X y (List.range X.length)).length : ℕ) : ℤ) := by
        rw [hst]
      have hgd : st.gini_data = round8 (1 -
          ((((mkRows X y (List.range X.length)).map TRow.yv).sum : ℚ) /
            ((mkRows X y (List.range X.length)).length : ℚ)) ^ 2 -
          (((((mkRows X y (List.range X.length)).length : ℤ) -
              (((mkRows X y (List.range X.length)).map TRow.yv).sum : ℤ) : ℤ) : ℚ) /
            ((mkRows X y (List.range X.length)).length : ℚ)) ^ 2) := by rw [hst]
      have hmono : ¬ (st.pos_count = 0 ∨ st.pos_count = st.count) := by
        rw [hpc, hcc]
        intro hcon
        apply hm
        rcases hcon with hcon | hcon
        · exact Or.inl (by exact_mod_cast hcon)
        · exact Or.inr (by exact_mod_cast hcon)
      have hgini : round8 (1 - ((st.pos_count : ℚ) / (st.count : ℚ)) ^ 2 -
          (((st.pos_count - st.count : ℤ) : ℚ) / (st.count : ℚ)) ^ 2) = st.gini_data := by
        rw [hpc, hcc, hgd]
        exact round8_gini_swap _ _
      have hmemf : f ∈ attr.map Prod.fst := by
        rw [hf]
        exact hch _ _ (fun hcon => hne (List.map_eq_nil_iff.mp hcon))
      obtain ⟨frec, hlook⟩ := lookup_some_of_mem_keys f attr hmemf
      have hmem2 : (f, frec) ∈ attr := mem_of_lookup_some hlook
      have hsplit : splitRecFor (mkRows X y (List.range X.length)) f = some frec :=
        mem_cand_split ((X.headD []).length) _ (f, frec) (hattr ▸ hmem2)
      obtain ⟨_, _, hfl, hfr, _⟩ := splitRecFor_some _ f frec hsplit
      have hcache : ∀ e ∈ attr, e.2.gini_index = computeGiniIndex e.2.left e.2.right := by
        intro e he
        obtain ⟨_, _, _, _, hg⟩ := splitRecFor_some _ e.1 e.2
          (mem_cand_split ((X.headD []).length) _ e (hattr ▸ he))
        exact hg
      exact deleteT_nil_node P ((X.headD []).length) (storeOf X y) f st attr l r
        hmono hgini frec hlook hfl hfr hcache hne hef h1 h2

/-- C4 witness: on the scenario-A fit (internal root), `delete([])` returns
the state unchanged with the empty trace. -/
theorem c4_witness :
    fitT PA XA yA = .ok stA ∧
    deleteT PA stA [] = .ok (stA, emptyBatchTrace stA.root) := by
  have hfit : fitT PA XA yA = .ok stA := by with_unfolding_all rfl
  refine ⟨hfit, ?_⟩
  exact c4_empty_delete_noop PA XA yA stA (by decide)
    (fun as ps h => by
      cases as with
      | nil => exact absurd rfl h
      | cons a t => exact List.mem_cons_self a t)
    (fun q => by norm_num [PA, constOne])
    (by norm_num [PA, constOne])
    (by norm_num [PA, constOne])
    hfit


theorem coe_filter_bool {α : Type} (p : α → Bool) (l : List α) :
    (↑(l.filter p) : Multiset α) = Multiset.filter (fun row => p row = true) ↑l := by
  rw [Multiset.filter_coe]
  congr 1
  apply List.filter_congr
  intro a _
  simp

theorem coe_filter_not_bool {α : Type} (p : α → Bool) (l : List α) :
    (↑(l.filter (fun r => !(p r))) : Multiset α)
      = Multiset.filter (fun row => ¬ p row = true) ↑l := by
  rw [Multiset.filter_coe]
  congr 1
  apply List.filter_congr
  intro a _
  simp

theorem coe_countP_bool {α : Type} (p : α → Bool) (l : List α) :
    Multiset.countP (fun row => p row = true) ↑l = l.countP p := by
  rw [Multiset.coe_countP]
  apply List.countP_congr
  intro a _
  simp

theorem coe_countP_not_bool {α : Type} (p : α → Bool) (l : List α) :
    Multiset.countP (fun row => ¬ p row = true) ↑l = l.countP (fun r => !(p r)) := by
  rw [Multiset.coe_countP]
  apply List.countP_congr
  intro a _
  simp

theorem length_filter_not (p : TRow → Bool) (l : List TRow) :
    (l.filter (fun r => !(p r))).length = l.length - (l.filter p).length := by
  have h2 : l.length = (l.filter p).length + (l.filter (fun r => !(p r))).length :=
    List.length_eq_length_filter_add (l := l) p
  omega

theorem lookup_none_of_not_mem_keys {β : Type} (a : ℕ) (l : List (ℕ × β))
    (h : ¬ a ∈ l.map Prod.fst) : l.lookup a = none := by
  induction l with
  | nil => rfl
  | cons e t ih =>
    rw [List.lookup]
    have he : a ≠ e.1 := fun hc => h (by simp [hc])
    have hbe : (a == e.1) = false := beq_eq_false_iff_ne.mpr he
    simp only [hbe]
    exact ih (fun hc => h (by simp at hc ⊢; exact Or.inr hc))

/-- If every row currently at a node has the same value of feature `i`, a
well-formed subtree never mentions `i`: its cached branch counts would
otherwise name an empty branch. -/
theorem WF_avoids_const (i : ℕ) (b : Bool) :
    ∀ (node : DNode) (rows : Multiset TRow),
    WF node rows → (∀ row ∈ rows, xAt i row = b) → avoids i node := by
  intro node
  induction node with
  | leaf v st lv idx => intro rows _ _; trivial
  | node f st attr l r ihl ihr =>
    intro rows hwf hconst
    obtain ⟨⟨frec, hlf⟩, hcnt, hwl, hwr⟩ := hwf
    have hkey : ∀ e ∈ attr, e.1 ≠ i := by
      intro e he hei
      obtain ⟨hcl, hcr, h1l, h1r⟩ := hcnt e he
      rw [hei] at hcl hcr
      have hposl : 0 < Multiset.countP (fun row => xAt i row = true) rows := by
        rw [hcl] at h1l
        exact_mod_cast lt_of_lt_of_le zero_lt_one h1l
      have hposr : 0 < Multiset.countP (fun row => ¬ xAt i row = true) rows := by
        rw [hcr] at h1r
        exact_mod_cast lt_of_lt_of_le zero_lt_one h1r
      obtain ⟨r1, hr1, hp1⟩ := Multiset.countP_pos.mp hposl
      obtain ⟨r2, hr2, hp2⟩ := Multiset.countP_pos.mp hposr
      rw [hconst r1 hr1] at hp1
      rw [hconst r2 hr2] at hp2
      exact hp2 hp1
    refine ⟨?_, ?_, ?_, ?_⟩
    · apply lookup_none_of_not_mem_keys
      intro hc
      rw [List.mem_map] at hc
      obtain ⟨e, he, hke⟩ := hc
      exact hkey e he hke
    · exact hkey (f, frec) (mem_of_lookup_some hlf) 
    · exact ihl _ hwl (fun row hrow => hconst row (Multiset.mem_filter.mp hrow).1)
    · exact ihr _ hwr (fun row hrow => hconst row (Multiset.mem_filter.mp hrow).1)

/-- In a well-formed subtree the concatenated leaf indices are exactly the
keys of the rows at the subtree, as a multiset. -/
theorem gather_keys :
    ∀ (node : DNode) (rows : Multiset TRow), WF node rows →
    (↑(gatherIndices node) : Multiset ℕ) = rows.map TRow.key := by
  intro node
  induction node with
  | leaf v st lv idx => intro rows hwf; exact hwf
  | node f st attr l r ihl ihr =>
    intro rows hwf
    obtain ⟨_, _, hwl, hwr⟩ := hwf
    show (↑(gatherIndices l ++ gatherIndices r) : Multiset ℕ) = _
    rw [← Multiset.coe_add, ihl _ hwl, ihr _ hwr, ← Multiset.map_add,
      Multiset.filter_add_not]


/-- The kept keys after removing a sub-batch: filtering the batch keys out
of the key multiset is the same as taking the keys of the remaining rows. -/
theorem map_key_sub (rows : Multiset TRow) (batch : List TRow)
    (hle : ↑batch ≤ rows) (hnd : (rows.map TRow.key).Nodup) :
    Multiset.filter (fun k => ¬ k ∈ batch.map TRow.key) (rows.map TRow.key)
      = (rows - ↑batch).map TRow.key := by
  obtain ⟨rest, hrest⟩ : ∃ rest, rows = ↑batch + rest :=
    ⟨rows - ↑batch, by rw [add_comm, tsub_add_cancel_of_le hle]⟩
  subst hrest
  rw [add_tsub_cancel_left, Multiset.map_add, Multiset.filter_add]
  rw [Multiset.map_add, Multiset.nodup_add] at hnd
  obtain ⟨-, -, hdisj⟩ := hnd
  rw [Multiset.filter_eq_nil.mpr (fun k hk => by
      rw [Multiset.map_coe, Multiset.mem_coe] at hk
      exact fun hc => hc hk),
    Multiset.filter_eq_self.mpr (fun k hk => by
      intro hc
      have hk2 : k ∈ Multiset.map TRow.key ↑batch := by
        rw [Multiset.map_coe, Multiset.mem_coe]
        exact hc
      exact Multiset.disjoint_left.mp hdisj hk2 hk),
    zero_add]

/-- `_remove_elements` on a duplicate-free array is multiset filtering. -/
theorem coe_removeElements (arr elems : List ℕ) (h : arr.Nodup) :
    (↑(removeElements arr elems) : Multiset ℕ)
      = Multiset.filter (fun a => ¬ a ∈ elems) ↑arr := by
  rw [removeElements]
  rw [Multiset.coe_eq_coe.mpr
    (List.perm_insertionSort (· ≤ ·) ((arr.filter (fun a => !(elems.contains a))).dedup))]
  rw [List.dedup_eq_self.mpr (h.filter _)]
  rw [Multiset.filter_coe]
  congr 1
  apply List.filter_congr
  intro a _
  simp

/-- `_get_numpy_data` succeeds and returns the looked-up rows in key order
whenever every key is present. -/
theorem getData_eq_map (store : List (ℕ × (List ℕ × ℕ))) (g : ℕ → List ℕ × ℕ) :
    ∀ ks : List ℕ, (∀ k ∈ ks, store.lookup k = some (g k)) →
    getData store ks = some (ks.map (fun k => ⟨(g k).1, (g k).2, k⟩)) := by
  intro ks
  induction ks with
  | nil => intro h; rfl
  | cons k t ih =>
    intro h
    have hk := h k (List.mem_cons_self k t)
    have ht := ih (fun k2 hk2 => h k2 (List.mem_cons_of_mem k hk2))
    rw [getData] at ht ⊢
    rw [List.mapM_cons, hk, ht]
    rfl

theorem lookup_append_of_some {β : Type} {l1 : List (ℕ × β)} (l2 : List (ℕ × β))
    {k : ℕ} {v : β} (h : l1.lookup k = some v) : (l1 ++ l2).lookup k = some v := by
  induction l1 with
  | nil => simp [List.lookup] at h
  | cons e t ih =>
    rw [List.lookup] at h
    rw [List.cons_append, List.lookup]
    cases hbe : (k == e.1) with
    | true => rw [hbe] at h; exact h
    | false => rw [hbe] at h; exact ih h

theorem lookup_append_of_none {β : Type} {l1 : List (ℕ × β)} (l2 : List (ℕ × β))
    {k : ℕ} (h : l1.lookup k = none) : (l1 ++ l2).lookup k = l2.lookup k := by
  induction l1 with
  | nil => rfl
  | cons e t ih =>
    rw [List.lookup] at h
    rw [List.cons_append, List.lookup]
    cases hbe : (k == e.1) with
    | true => rw [hbe] at h; exact Option.noConfusion h
    | false => rw [hbe] at h; exact ih h

theorem lookup_map_range {β : Type} (g : ℕ → β) :
    ∀ n k, k < n → ((List.range n).map (fun i => (i, g i))).lookup k = some (g k) := by
  intro n
  induction n with
  | zero => intro k hk; exact absurd hk (by omega)
  | succ m ih =>
    intro k hk
    rw [List.range_succ, List.map_append]
    rcases Nat.lt_or_ge k m with hlt | hge
    · exact lookup_append_of_some _ (ih k hlt)
    · have hk0 : k = m := by omega
      subst hk0
      have hkeys : ¬ k ∈ ((List.range k).map (fun i => (i, g i))).map Prod.fst := by
        intro hc
        rw [List.map_map] at hc
        rw [show (Prod.fst ∘ fun i => (i, g i)) = id from rfl, List.map_id] at hc
        exact absurd (List.mem_range.mp hc) (lt_irrefl k)
      rw [lookup_append_of_none _ (lookup_none_of_not_mem_keys k _ hkeys)]
      rw [List.map_cons, List.map_nil, List.lookup]
      simp

theorem lookup_storeOf (X : List (List ℕ)) (y : List ℕ) (k : ℕ) (hk : k < X.length) :
    (storeOf X y).lookup k = some (X.getD k [], y.getD k 0) :=
  lookup_map_range _ X.length k hk


/-- `_build_tree` establishes the split-statistics invariant and never
reuses a feature along a path. -/
theorem buildT_WF (P : Params) (F : ℕ) (hch : chooserValid P) :
    ∀ (fuel : ℕ) (rows : List TRow) (depth : ℕ) (t : DNode) (sc : ℕ),
    buildT P F fuel rows depth = .ok (t, sc) →
    WF t ↑rows ∧ PathOK t := by
  intro fuel
  induction fuel with
  | zero =>
    intro rows depth t sc h
    rw [buildT] at h
    exact absurd h (by simp)
  | succ fuel ih =>
    intro rows depth t sc h
    cases t with
    | leaf v st lv idx =>
      obtain ⟨-, -, -, hidx, -, -⟩ := buildT_leaf_inv P F fuel rows depth v st lv idx sc h
      refine ⟨?_, trivial⟩
      show (↑idx : Multiset ℕ) = _
      rw [hidx, Multiset.map_coe]
    | node f st attr l r =>
      obtain ⟨-, hattr, hf, hne, -, ⟨sl, heql⟩, ⟨sr, heqr⟩⟩ :=
        buildT_node_inv P F fuel rows depth f st attr l r sc h
      obtain ⟨hwl, hpl⟩ := ih _ _ _ _ heql
      obtain ⟨hwr, hpr⟩ := ih _ _ _ _ heqr
      have hwl2 : WF l (Multiset.filter (fun row => xAt f row = true) ↑rows) := by
        rw [← coe_filter_bool]
        exact hwl
      have hwr2 : WF r (Multiset.filter (fun row => ¬ xAt f row = true) ↑rows) := by
        rw [← coe_filter_not_bool]
        exact hwr
      refine ⟨⟨?_, ?_, hwl2, hwr2⟩, ?_, ?_, hpl, hpr⟩
      · apply lookup_some_of_mem_keys
        rw [hf]
        exact hch _ _ (fun hc => hne (List.map_eq_nil_iff.mp hc))
      · intro e he
        obtain ⟨hl, hr2, hpl2, hpr2, -⟩ := splitRecFor_some rows e.1 e.2
          (mem_cand_split F rows e (hattr ▸ he))
        refine ⟨?_, ?_, by omega, by omega⟩
        · rw [hl, coe_countP_bool, List.countP_eq_length_filter]
        · rw [hr2, coe_countP_not_bool, List.countP_eq_length_filter, length_filter_not]
      · exact WF_avoids_const f true l _ hwl2
          (fun row hrow => (Multiset.mem_filter.mp hrow).2)
      · exact WF_avoids_const f false r _ hwr2
          (fun row hrow => by simpa using (Multiset.mem_filter.mp hrow).2)

/-- The rows `fit` builds from: each carries its position as key and the
corresponding row of the stored data. -/
theorem mkRows_range_mem (X : List (List ℕ)) (y : List ℕ) (hxy : X.length = y.length) :
    ∀ r ∈ mkRows X y (List.range X.length),
      r.key < X.length ∧ r = ⟨X.getD r.key [], y.getD r.key 0, r.key⟩ := by
  intro r hr
  rw [mkRows, List.mem_map] at hr
  obtain ⟨p, hp, hrp⟩ := hr
  rw [List.mem_iff_getElem] at hp
  obtain ⟨j, hj, hp⟩ := hp
  have hjX : j < X.length := by
    rw [List.length_zip, List.length_zip, List.length_range] at hj
    omega
  have hjy : j < y.length := hxy ▸ hjX
  have hp2 : p = (X[j], (y[j], j)) := by
    rw [← hp, List.getElem_zip, List.getElem_zip, List.getElem_range]
  subst hrp
  rw [hp2]
  refine ⟨hjX, ?_⟩
  show (⟨X[j], y[j], j⟩ : TRow) = _
  rw [List.getD_eq_getElem X [] hjX, List.getD_eq_getElem y 0 hjy]

/-- The store written by `fit` answers every row lookup of the fitted
rows. -/
theorem storeOK_fit (X : List (List ℕ)) (y : List ℕ) (hxy : X.length = y.length) :
    StoreOK (storeOf X y) ↑(mkRows X y (List.range X.length)) := by
  intro r hr
  rw [Multiset.mem_coe] at hr
  obtain ⟨hlt, hre⟩ := mkRows_range_mem X y hxy r hr
  rw [lookup_storeOf X y r.key hlt,
    show r.x = X.getD r.key [] from congrArg TRow.x hre,
    show r.yv = y.getD r.key 0 from congrArg TRow.yv hre]

theorem storeOf_keys (X : List (List ℕ)) (y : List ℕ) :
    (storeOf X y).map Prod.fst = List.range X.length := by
  rw [storeOf, List.map_map, show (Prod.fst ∘ fun i : ℕ =>
    (i, (X.getD i [], y.getD i 0))) = id from rfl, List.map_id]


/-- Inversion of the per-feature delete pass when the entry survives: the
key is preserved, both cached counts drop by the per-branch batch sizes,
and a branch that received rows had strictly more cached rows than it
lost. -/
theorem procAttr_entry_inv (c : ℤ) (b : List TRow) (e : ℕ × SplitRec) (e2 : ℕ × SplitRec)
    (h : (procAttr c b e).entry = some e2) :
    e2.1 = e.1 ∧
    e2.2.left.count = e.2.left.count - ((b.filter (xAt e.1)).length : ℤ) ∧
    e2.2.right.count = e.2.right.count - ((b.filter (fun r => !(xAt e.1 r))).length : ℤ) ∧
    (0 < (b.filter (xAt e.1)).length →
      ((b.filter (xAt e.1)).length : ℤ) < e.2.left.count) ∧
    (0 < (b.filter (fun r => !(xAt e.1 r))).length →
      ((b.filter (fun r => !(xAt e.1 r))).length : ℤ) < e.2.right.count) := by
  rw [procAttr] at h
  dsimp only at h
  split at h
  case _ lb rb heq1 heq2 =>
    dsimp only at h
    injection h with h2
    subst h2
    have hlb : lb.count = e.2.left.count - ((b.filter (xAt e.1)).length : ℤ) ∧
        (0 < (b.filter (xAt e.1)).length →
          ((b.filter (xAt e.1)).length : ℤ) < e.2.left.count) := by
      split at heq1
      case isTrue hpos =>
        rw [updateDecisionNode] at heq1
        split at heq1
        case isTrue hle => exact Option.noConfusion heq1
        case isFalse hgt =>
          injection heq1 with h3
          subst h3
          rw [List.length_map] at hgt
          rw [List.length_map]
          exact ⟨rfl, fun _ => by omega⟩
      case isFalse hpos =>
        injection heq1 with h3
        subst h3
        rw [Nat.eq_zero_of_not_pos hpos]
        exact ⟨by omega, fun hc => absurd hc (by omega)⟩
    have hrb : rb.count = e.2.right.count - ((b.filter (fun r => !(xAt e.1 r))).length : ℤ) ∧
        (0 < (b.filter (fun r => !(xAt e.1 r))).length →
          ((b.filter (fun r => !(xAt e.1 r))).length : ℤ) < e.2.right.count) := by
      split at heq2
      case isTrue hpos =>
        rw [updateDecisionNode] at heq2
        split at heq2
        case isTrue hle => exact Option.noConfusion heq2
        case isFalse hgt =>
          injection heq2 with h3
          subst h3
          rw [List.length_map] at hgt
          rw [List.length_map]
          exact ⟨rfl, fun _ => by omega⟩
      case isFalse hpos =>
        injection heq2 with h3
        subst h3
        rw [Nat.eq_zero_of_not_pos hpos]
        exact ⟨by omega, fun hc => absurd hc (by omega)⟩
    exact ⟨rfl, hlb.1, hrb.1, hlb.2, hrb.2⟩
  case _ hno =>
    exact Option.noConfusion h

/-- The per-feature pass keeps an entry whose branches both strictly
survive the batch. -/
theorem procAttr_entry_some (c : ℤ) (b : List TRow) (e : ℕ × SplitRec)
    (hl : ((b.filter (xAt e.1)).length : ℤ) < e.2.left.count)
    (hr : ((b.filter (fun r => !(xAt e.1 r))).length : ℤ) < e.2.right.count) :
    ∃ v, (procAttr c b e).entry = some (e.1, v) := by
  rw [procAttr]
  dsimp only
  split
  case _ lb rb heq1 heq2 => exact ⟨⟨lb, rb, computeGiniIndex lb rb⟩, rfl⟩
  case _ hno =>
    exfalso
    have hlres : ∃ lb, (if 0 < (b.filter (xAt e.1)).length
        then updateDecisionNode c e.2.left ((b.filter (xAt e.1)).map TRow.yv)
        else some e.2.left) = some lb := by
      split
      · rw [updateDecisionNode, List.length_map, if_neg (by omega)]
        exact ⟨_, rfl⟩
      · exact ⟨_, rfl⟩
    have hrres : ∃ rb, (if 0 < (b.filter (fun r => !(xAt e.1 r))).length
        then updateDecisionNode c e.2.right ((b.filter (fun r => !(xAt e.1 r))).map TRow.yv)
        else some e.2.right) = some rb := by
      split
      · rw [updateDecisionNode, List.length_map, if_neg (by omega)]
        exact ⟨_, rfl⟩
      · exact ⟨_, rfl⟩
    obtain ⟨lb, hlb⟩ := hlres
    obtain ⟨rb, hrb⟩ := hrres
    exact hno lb rb hlb hrb


/-- If the split feature's entry survives the per-feature pass, it is still
found under the same key in the filtered per-feature map. -/
theorem lookup_attr2 (c : ℤ) (b : List TRow) (f : ℕ) (v : SplitRec) :
    ∀ (attr : List (ℕ × SplitRec)) (frec : SplitRec), attr.lookup f = some frec →
    (procAttr c b (f, frec)).entry = some (f, v) →
    ((attr.map (procAttr c b)).filterMap AttrStep.entry).lookup f = some v := by
  intro attr
  induction attr with
  | nil => intro frec h _; exact Option.noConfusion h
  | cons e t ih =>
    intro frec hl hv
    rw [List.lookup] at hl
    by_cases hef : f = e.1
    · have hbe : (f == e.1) = true := beq_iff_eq.mpr hef
      simp only [hbe] at hl
      injection hl with hl2
      have he2 : (f, frec) = e := by
        rw [hef, ← hl2]
      rw [List.map_cons, List.filterMap_cons_some (he2 ▸ hv)]
      rw [List.lookup]
      simp
    · have hbe : (f == e.1) = false := beq_eq_false_iff_ne.mpr hef
      simp only [hbe] at hl
      rw [List.map_cons]
      cases hcase : (procAttr c b e).entry with
      | none =>
        rw [List.filterMap_cons_none hcase]
        exact ih frec hl hv
      | some e2 =>
        have hk := (procAttr_entry_inv c b e e2 hcase).1
        rw [List.filterMap_cons_some hcase, List.lookup]
        have hbe2 : (f == e2.1) = false := beq_eq_false_iff_ne.mpr (by
          rw [hk]
          exact hef)
        simp only [hbe2]
        exact ih frec hl hv

/-- Every entry of the filtered per-feature map is the surviving image of
an entry of the original map. -/
theorem mem_attr2 (c : ℤ) (b : List TRow) (attr : List (ℕ × SplitRec)) (e2 : ℕ × SplitRec)
    (h : e2 ∈ (attr.map (procAttr c b)).filterMap AttrStep.entry) :
    ∃ e ∈ attr, (procAttr c b e).entry = some e2 := by
  rw [List.filterMap_map, List.mem_filterMap] at h
  exact h

/-- A full rebuild over the remaining keys produces a subtree that is
well-formed for exactly the remaining rows. -/
theorem rebuild_WF (P : Params) (F : ℕ) (store : List (ℕ × (List ℕ × ℕ)))
    (hch : chooserValid P)
    (rows : Multiset TRow) (batch : List TRow) (ks : List ℕ)
    (hsok : StoreOK store rows)
    (hks : (↑ks : Multiset ℕ) = (rows - ↑batch).map TRow.key)
    (rows2 : List TRow) (hgd : getData store ks = some rows2)
    (fuel depth : ℕ) (t3 : DNode) (s3 : ℕ)
    (hb : buildT P F fuel rows2 depth = .ok (t3, s3)) :
    WF t3 (rows - ↑batch) ∧ PathOK t3 := by
  have hfetch : ∀ k ∈ ks, store.lookup k = some ((store.lookup k).getD ([], 0)) := by
    intro k hk
    have hk2 : k ∈ (rows - ↑batch).map TRow.key := by
      rw [← hks]
      exact hk
    obtain ⟨row, hrow, hkey⟩ := Multiset.mem_map.mp hk2
    have hrow2 : row ∈ rows := Multiset.mem_of_le tsub_le_self hrow
    rw [← hkey, hsok row hrow2]
    rfl
  have hgd2 := getData_eq_map store (fun k => (store.lookup k).getD ([], 0)) ks hfetch
  rw [hgd] at hgd2
  injection hgd2 with hrows2
  have hmul : (↑rows2 : Multiset TRow) = rows - ↑batch := by
    rw [hrows2, ← Multiset.map_coe, hks, Multiset.map_map]
    rw [Multiset.map_congr rfl (fun row hrow => ?_), Multiset.map_id]
    have hrow2 : row ∈ rows := Multiset.mem_of_le tsub_le_self hrow
    show (⟨((store.lookup row.key).getD ([], 0)).1,
      ((store.lookup row.key).getD ([], 0)).2, row.key⟩ : TRow) = id row
    rw [hsok row hrow2]
    rfl
  obtain ⟨hw, hp⟩ := buildT_WF P F hch fuel rows2 depth t3 s3 hb
  rw [hmul] at hw
  exact ⟨hw, hp⟩


theorem deleteStep_WF (P : Params) (F : ℕ) (store : List (ℕ × (List ℕ × ℕ)))
    (hch : chooserValid P) :
    ∀ (node : DNode) (rows : Multiset TRow) (batch : List TRow) (depth : ℕ)
      (t2 : DNode) (tr : List String),
    deleteStep P F store node batch depth = .ok (t2, tr) →
    WF node rows → PathOK node →
    (↑batch : Multiset TRow) ≤ rows →
    (rows.map TRow.key).Nodup →
    StoreOK store rows →
    WF t2 (rows - ↑batch) ∧ PathOK t2 := by
  intro node
  induction node with
  | leaf v st lv idx =>
    intro rows batch depth t2 tr h hwf hpo hle hnd hsok
    simp only [deleteStep] at h
    injection h with h2
    injection h2 with h3 h4
    subst h3
    refine ⟨?_, trivial⟩
    show (↑(removeElements idx (batch.map TRow.key)) : Multiset ℕ) = _
    have hidxnd : idx.Nodup := by
      rw [← Multiset.coe_nodup, show (↑idx : Multiset ℕ) = rows.map TRow.key from hwf]
      exact hnd
    rw [coe_removeElements _ _ hidxnd,
      show (↑idx : Multiset ℕ) = rows.map TRow.key from hwf,
      map_key_sub rows batch hle hnd]
  | node f st attr l r ihl ihr =>
    intro rows batch depth t2 tr h hwf hpo hle hnd hsok
    obtain ⟨⟨frec, hlf⟩, hcnt, hwl, hwr⟩ := hwf
    obtain ⟨havl, havr, hpl, hpr⟩ := hpo
    have hgat : ∀ (st2 : NodeStats) (attrX : List (ℕ × SplitRec)),
        (↑(gatherIndices (DNode.node f st2 attrX l r)) : Multiset ℕ) = rows.map TRow.key := by
      intro st2 attrX
      show (↑(gatherIndices l ++ gatherIndices r) : Multiset ℕ) = _
      rw [← Multiset.coe_add, gather_keys l _ hwl, gather_keys r _ hwr, ← Multiset.map_add,
        Multiset.filter_add_not]
    have hrem : ∀ (st2 : NodeStats) (attrX : List (ℕ × SplitRec)),
        (↑(removeElements (gatherIndices (DNode.node f st2 attrX l r))
          (batch.map TRow.key)) : Multiset ℕ) = (rows - ↑batch).map TRow.key := by
      intro st2 attrX
      have hnd2 : (gatherIndices (DNode.node f st2 attrX l r)).Nodup := by
        rw [← Multiset.coe_nodup, hgat st2 attrX]
        exact hnd
      rw [coe_removeElements _ _ hnd2, hgat st2 attrX, map_key_sub rows batch hle hnd]
    rw [deleteStep] at h
    split at h
    case isTrue hdeg => exact absurd h (by simp)
    case isFalse hdeg =>
      split at h
      case isTrue hmono =>
        injection h with h2
        injection h2 with h3 h4
        subst h3
        refine ⟨?_, trivial⟩
        show (↑(removeElements _ _) : Multiset ℕ) = _
        exact hrem _ _
      case isFalse hmono =>
        rw [hlf] at h
        split at h
        case h_1 heq => exact Option.noConfusion heq
        case h_2 frec2 heq =>
          injection heq with heq2
          subst heq2
          split at h
          case isTrue hhang =>
            split at h
            case h_1 heqg => exact absurd h (by simp)
            case h_2 rows2 heqg =>
              split at h
              case h_1 e heqb => exact absurd h (by simp)
              case h_2 t3 s3 heqb =>
                injection h with h2
                injection h2 with h3 h4
                subst h3
                exact rebuild_WF P F store hch rows batch _ hsok (hrem _ _)
                  rows2 heqg _ _ t3 s3 heqb
          case isFalse hhang =>
            dsimp only at h
            split at h
            case isTrue hdiv =>
              split at h
              case h_1 heqg => exact absurd h (by simp)
              case h_2 rows2 heqg =>
                split at h
                case h_1 e heqb => exact absurd h (by simp)
                case h_2 t3 s3 heqb =>
                  injection h with h2
                  injection h2 with h3 h4
                  subst h3
                  exact rebuild_WF P F store hch rows batch _ hsok (hrem _ _)
                    rows2 heqg _ _ t3 s3 heqb
            case isFalse hdiv =>
              obtain ⟨hh1, hh2⟩ := not_or.mp hhang
              have hhl : ((batch.filter (xAt f)).length : ℤ) < frec.left.count := by omega
              have hhr : ((batch.filter (fun r => !(xAt f r))).length : ℤ)
                  < frec.right.count := by omega
              obtain ⟨v, hv⟩ := procAttr_entry_some
                (deleteNodeStats st batch).count batch (f, frec) hhl hhr
              have hlook2 : ((attr.map (procAttr (deleteNodeStats st batch).count
                  batch)).filterMap AttrStep.entry).lookup f = some v :=
                lookup_attr2 _ _ _ _ attr frec hlf hv
              have hcnt2 : ∀ e2 ∈ (attr.map (procAttr (deleteNodeStats st batch).count
                    batch)).filterMap AttrStep.entry,
                  e2.2.left.count
                    = ((rows - ↑batch).countP (fun row => xAt e2.1 row = true) : ℤ) ∧
                  e2.2.right.count
                    = ((rows - ↑batch).countP (fun row => ¬ xAt e2.1 row = true) : ℤ) ∧
                  1 ≤ e2.2.left.count ∧ 1 ≤ e2.2.right.count := by
                intro e2 he2
                obtain ⟨e, he, hent⟩ := mem_attr2 _ _ attr e2 he2
                obtain ⟨hk, hcl, hcr, hil, hir⟩ := procAttr_entry_inv _ _ e e2 hent
                obtain ⟨hwcl, hwcr, hw1l, hw1r⟩ := hcnt e he
                have hsubl : (rows - ↑batch).countP (fun row => xAt e.1 row = true)
                    = rows.countP (fun row => xAt e.1 row = true)
                      - Multiset.countP (fun row => xAt e.1 row = true) ↑batch :=
                  Multiset.countP_sub _ hle
                have hsubr : (rows - ↑batch).countP (fun row => ¬ xAt e.1 row = true)
                    = rows.countP (fun row => ¬ xAt e.1 row = true)
                      - Multiset.countP (fun row => ¬ xAt e.1 row = true) ↑batch :=
                  Multiset.countP_sub _ hle
                have hblel : Multiset.countP (fun row => xAt e.1 row = true) ↑batch
                    ≤ rows.countP (fun row => xAt e.1 row = true) :=
                  Multiset.countP_le_of_le _ hle
                have hbler : Multiset.countP (fun row => ¬ xAt e.1 row = true) ↑batch
                    ≤ rows.countP (fun row => ¬ xAt e.1 row = true) :=
                  Multiset.countP_le_of_le _ hle
                have hcpl : Multiset.countP (fun row => xAt e.1 row = true) ↑batch
                    = (batch.filter (xAt e.1)).length := by
                  rw [coe_countP_bool, List.countP_eq_length_filter]
                have hcpr : Multiset.countP (fun row => ¬ xAt e.1 row = true) ↑batch
                    = (batch.filter (fun r => !(xAt e.1 r))).length := by
                  rw [coe_countP_not_bool, List.countP_eq_length_filter]
                rw [hk]
                refine ⟨?_, ?_, ?_, ?_⟩
                · rw [hcl, hwcl, hsubl, ← hcpl, Nat.cast_sub hblel]
                · rw [hcr, hwcr, hsubr, ← hcpr, Nat.cast_sub hbler]
                · rcases Nat.eq_zero_or_pos (batch.filter (xAt e.1)).length with h0 | hp
                  · rw [h0] at hcl
                    omega
                  · have := hil hp
                    omega
                · rcases Nat.eq_zero_or_pos
                      (batch.filter (fun r => !(xAt e.1 r))).length with h0 | hp
                  · rw [h0] at hcr
                    omega
                  · have := hir hp
                    omega
              have hfsub : (rows - ↑batch).filter (fun row => xAt f row = true)
                  = rows.filter (fun row => xAt f row = true)
                    - ↑(batch.filter (xAt f)) := by
                rw [Multiset.filter_sub, coe_filter_bool]
              have hfsubn : (rows - ↑batch).filter (fun row => ¬ xAt f row = true)
                  = rows.filter (fun row => ¬ xAt f row = true)
                    - ↑(batch.filter (fun r => !(xAt f r))) := by
                rw [Multiset.filter_sub, coe_filter_not_bool]
              have hleL : (↑(batch.filter (xAt f)) : Multiset TRow)
                  ≤ rows.filter (fun row => xAt f row = true) := by
                rw [coe_filter_bool]
                exact Multiset.filter_le_filter _ hle
              have hleR : (↑(batch.filter (fun r => !(xAt f r))) : Multiset TRow)
                  ≤ rows.filter (fun row => ¬ xAt f row = true) := by
                rw [coe_filter_not_bool]
                exact Multiset.filter_le_filter _ hle
              have hndL : ((Multiset.filter (fun row => xAt f row = true) rows).map
                  TRow.key).Nodup :=
                Multiset.nodup_of_le (Multiset.map_le_map (Multiset.filter_le _ _)) hnd
              have hndR : ((Multiset.filter (fun row => ¬ xAt f row = true) rows).map
                  TRow.key).Nodup :=
                Multiset.nodup_of_le (Multiset.map_le_map (Multiset.filter_le _ _)) hnd
              have hsokL : StoreOK store (Multiset.filter (fun row => xAt f row = true) rows) :=
                fun row hrow => hsok row (Multiset.mem_of_le (Multiset.filter_le _ _) hrow)
              have hsokR : StoreOK store
                  (Multiset.filter (fun row => ¬ xAt f row = true) rows) :=
                fun row hrow => hsok row (Multiset.mem_of_le (Multiset.filter_le _ _) hrow)
              split at h
              case isTrue hlpos =>
                split at h
                case h_1 e l2 heqL => exact absurd h (by simp)
                case h_2 l2 trL heqL =>
                  obtain ⟨hwl2, hpl2⟩ := ihl _ _ _ _ _ heqL hwl hpl hleL hndL hsokL
                  split at h
                  case isTrue hrpos =>
                    split at h
                    case h_1 e r2 heqR => exact absurd h (by simp)
                    case h_2 r2 trR heqR =>
                      obtain ⟨hwr2, hpr2⟩ := ihr _ _ _ _ _ heqR hwr hpr hleR hndR hsokR
                      injection h with h2
                      injection h2 with h3 h4
                      subst h3
                      refine ⟨⟨⟨v, hlook2⟩, hcnt2, ?_, ?_⟩, ?_, ?_, hpl2, hpr2⟩
                      · rw [hfsub]
                        exact hwl2
                      · rw [hfsubn]
                        exact hwr2
                      · exact WF_avoids_const f true l2 _ hwl2 (fun row hrow =>
                          (Multiset.mem_filter.mp
                            (Multiset.mem_of_le tsub_le_self hrow)).2)
                      · exact WF_avoids_const f false r2 _ hwr2 (fun row hrow => by
                          simpa using (Multiset.mem_filter.mp
                            (Multiset.mem_of_le tsub_le_self hrow)).2)
                  case isFalse hrpos =>
                    injection h with h2
                    injection h2 with h3 h4
                    subst h3
                    have hrnil : batch.filter (fun r => !(xAt f r)) = [] :=
                      List.length_eq_zero.mp (Nat.eq_zero_of_not_pos hrpos)
                    have hwr2 : WF r ((rows - ↑batch).filter
                        (fun row => ¬ xAt f row = true)) := by
                      rw [hfsubn, hrnil]
                      show WF r (_ - (↑([] : List TRow) : Multiset TRow))
                      rw [Multiset.coe_nil, tsub_zero]
                      exact hwr
                    refine ⟨⟨⟨v, hlook2⟩, hcnt2, ?_, hwr2⟩, ?_, ?_, hpl2, hpr⟩
                    · rw [hfsub]
                      exact hwl2
                    · exact WF_avoids_const f true l2 _ hwl2 (fun row hrow =>
                        (Multiset.mem_filter.mp
                          (Multiset.mem_of_le tsub_le_self hrow)).2)
                    · exact WF_avoids_const f false r _ hwr2 (fun row hrow => by
                        simpa using (Multiset.mem_filter.mp hrow).2)
              case isFalse hlpos =>
                have hlnil : batch.filter (xAt f) = [] :=
                  List.length_eq_zero.mp (Nat.eq_zero_of_not_pos hlpos)
                have hwl2 : WF l ((rows - ↑batch).filter
                    (fun row => xAt f row = true)) := by
                  rw [hfsub, hlnil]
                  show WF l (_ - (↑([] : List TRow) : Multiset TRow))
                  rw [Multiset.coe_nil, tsub_zero]
                  exact hwl
                split at h
                case isTrue hrpos =>
                  split at h
                  case h_1 e r2 heqR => exact absurd h (by simp)
                  case h_2 r2 trR heqR =>
                    obtain ⟨hwr2, hpr2⟩ := ihr _ _ _ _ _ heqR hwr hpr hleR hndR hsokR
                    injection h with h2
                    injection h2 with h3 h4
                    subst h3
                    refine ⟨⟨⟨v, hlook2⟩, hcnt2, hwl2, ?_⟩, ?_, ?_, hpl, hpr2⟩
                    · rw [hfsubn]
                      exact hwr2
                    · exact WF_avoids_const f true l _ hwl2 (fun row hrow =>
                        (Multiset.mem_filter.mp hrow).2)
                    · exact WF_avoids_const f false r2 _ hwr2 (fun row hrow => by
                        simpa using (Multiset.mem_filter.mp
                          (Multiset.mem_of_le tsub_le_self hrow)).2)
                case isFalse hrpos =>
                  injection h with h2
                  injection h2 with h3 h4
                  subst h3
                  have hrnil : batch.filter (fun r => !(xAt f r)) = [] :=
                    List.length_eq_zero.mp (Nat.eq_zero_of_not_pos hrpos)
                  have hwr2 : WF r ((rows - ↑batch).filter
                      (fun row => ¬ xAt f row = true)) := by
                    rw [hfsubn, hrnil]
                    show WF r (_ - (↑([] : List TRow) : Multiset TRow))
                    rw [Multiset.coe_nil, tsub_zero]
                    exact hwr
                  refine ⟨⟨⟨v, hlook2⟩, hcnt2, hwl2, hwr2⟩, ?_, ?_, hpl, hpr⟩
                  · exact WF_avoids_const f true l _ hwl2 (fun row hrow =>
                      (Multiset.mem_filter.mp hrow).2)
                  · exact WF_avoids_const f false r _ hwr2 (fun row hrow => by
                      simpa using (Multiset.mem_filter.mp hrow).2)


theorem getData_some_lookup (store : List (ℕ × (List ℕ × ℕ))) :
    ∀ (ks : List ℕ) (out : List TRow), getData store ks = some out →
    ∀ k ∈ ks, ∃ v, store.lookup k = some v := by
  intro ks
  induction ks with
  | nil => intro out h k hk; exact absurd hk (List.not_mem_nil k)
  | cons k0 t ih =>
    intro out h k hk
    rw [getData, List.mapM_cons] at h
    cases hl : store.lookup k0 with
    | none =>
      rw [hl] at h
      simp at h
    | some v0 =>
      rcases List.mem_cons.mp hk with rfl | hk2
      · exact ⟨v0, hl⟩
      · rw [hl] at h
        cases hm : t.mapM (fun k2 =>
            (store.lookup k2).map (fun r => (⟨r.1, r.2, k2⟩ : TRow))) with
        | none =>
          rw [hm] at h
          simp at h
        | some out2 => exact ih out2 hm k hk2

theorem lookup_filter_keys {β : Type} (p : ℕ → Bool) (k : ℕ) (hp : p k = true) :
    ∀ (l : List (ℕ × β)), (l.filter (fun kv => p kv.1)).lookup k = l.lookup k := by
  intro l
  induction l with
  | nil => rfl
  | cons e t ih =>
    rw [List.filter_cons]
    by_cases hpe : p e.1 = true
    · rw [if_pos hpe]
      rw [List.lookup, List.lookup]
      cases hbe : (k == e.1)
      · exact ih
      · rfl
    · rw [if_neg hpe]
      have hke : k ≠ e.1 := fun hc => hpe (hc ▸ hp)
      rw [List.lookup]
      have hbe : (k == e.1) = false := beq_eq_false_iff_ne.mpr hke
      simp only [hbe]
      exact ih

/-- `fit` establishes the tree invariant on the training rows. -/
theorem fitT_TreeInv (P : Params) (X : List (List ℕ)) (y : List ℕ) (s : TreeState)
    (hch : chooserValid P) (hxy : X.length = y.length)
    (hfit : fitT P X y = .ok s) :
    TreeInv s ↑(mkRows X y (List.range X.length)) := by
  rw [fitT] at hfit
  cases hb : buildT P ((X.headD []).length) (P.maxDepth + 1)
      (mkRows X y (List.range X.length)) 0 with
  | error e =>
    rw [hb] at hfit
    simp only [Except.map] at hfit
    exact absurd hfit (by simp)
  | ok t =>
    rw [hb] at hfit
    obtain ⟨root, sc⟩ := t
    simp only [Except.map] at hfit
    injection hfit with hfit
    subst hfit
    obtain ⟨hw, hp⟩ := buildT_WF P _ hch _ _ _ _ _ hb
    have hmk : (Multiset.map TRow.key ↑(mkRows X y (List.range X.length)))
        = ↑(List.range X.length) := by
      rw [Multiset.map_coe,
        mkRows_map_key X y (List.range X.length) hxy (List.length_range X.length).symm]
    refine ⟨hw, hp, ?_, storeOK_fit X y hxy, ?_⟩
    · rw [hmk, Multiset.coe_nodup]
      exact List.nodup_range X.length
    · rw [storeOf_keys, hmk]

/-- A successful `delete` maintains the tree invariant, now on the rows
whose keys were not removed. -/
theorem deleteT_TreeInv (P : Params) (s : TreeState) (rows : Multiset TRow)
    (D : List ℕ) (s2 : TreeState) (tr : List String)
    (hch : chooserValid P) (hinv : TreeInv s rows) (hD : D.Nodup)
    (hdel : deleteT P s D = .ok (s2, tr)) :
    TreeInv s2 (rows.filter (fun row => ¬ row.key ∈ D)) := by
  obtain ⟨hwf, hpo, hnd, hsok, hkeys⟩ := hinv
  rw [deleteT] at hdel
  split at hdel
  case h_1 heqg => exact absurd hdel (by simp)
  case h_2 batch heqg =>
    split at hdel
    case h_1 e t3 heqd => exact absurd hdel (by simp)
    case h_2 t2 tr2 heqd =>
      injection hdel with h2
      injection h2 with h3 h4
      subst h3
      have hfetch : ∀ k ∈ D, s.store.lookup k = some ((s.store.lookup k).getD ([], 0)) := by
        intro k hk
        obtain ⟨v, hv⟩ := getData_some_lookup s.store D batch heqg k hk
        rw [hv]
        rfl
      have hbatch_eq : batch = D.map (fun k => (⟨((s.store.lookup k).getD ([], 0)).1,
          ((s.store.lookup k).getD ([], 0)).2, k⟩ : TRow)) := by
        have h5 := getData_eq_map s.store (fun k => (s.store.lookup k).getD ([], 0)) D hfetch
        rw [heqg] at h5
        injection h5
      have hfetch_mem : ∀ k ∈ D, ∃ row ∈ rows, row.key = k ∧
          (⟨((s.store.lookup k).getD ([], 0)).1,
            ((s.store.lookup k).getD ([], 0)).2, k⟩ : TRow) = row := by
        intro k hk
        obtain ⟨v, hv⟩ := getData_some_lookup s.store D batch heqg k hk
        have hkst : k ∈ s.store.map Prod.fst :=
          List.mem_map.mpr ⟨(k, v), mem_of_lookup_some hv, rfl⟩
        have hkrows : k ∈ Multiset.map TRow.key rows := by
          rw [← hkeys, Multiset.mem_coe]
          exact hkst
        obtain ⟨row, hrow, hrk⟩ := Multiset.mem_map.mp hkrows
        refine ⟨row, hrow, hrk, ?_⟩
        rw [← hrk, hsok row hrow]
        rfl
      have hbkm : batch.map TRow.key = D := by
        rw [hbatch_eq, List.map_map,
          show (TRow.key ∘ fun k => (⟨((s.store.lookup k).getD ([], 0)).1,
            ((s.store.lookup k).getD ([], 0)).2, k⟩ : TRow)) = id from rfl, List.map_id]
      have hrows_nd : rows.Nodup := Multiset.Nodup.of_map TRow.key hnd
      have hbm : (↑batch : Multiset TRow) = rows.filter (fun row => row.key ∈ D) := by
        rw [Multiset.Nodup.ext (by
            rw [Multiset.coe_nodup]
            exact List.Nodup.of_map TRow.key (hbkm ▸ hD))
          (Multiset.Nodup.filter _ hrows_nd)]
        intro r2
        constructor
        · intro hr2
          rw [Multiset.mem_coe, hbatch_eq, List.mem_map] at hr2
          obtain ⟨k, hk, hr2⟩ := hr2
          obtain ⟨row, hrow, hrk, hfr⟩ := hfetch_mem k hk
          rw [← hr2, hfr]
          exact Multiset.mem_filter.mpr ⟨hrow, hrk ▸ hk⟩
        · intro hr2
          obtain ⟨hrow, hkd⟩ := Multiset.mem_filter.mp hr2
          rw [Multiset.mem_coe, hbatch_eq, List.mem_map]
          refine ⟨r2.key, hkd, ?_⟩
          rw [hsok r2 hrow]
          rfl
      have hleB : (↑batch : Multiset TRow) ≤ rows := by
        rw [hbm]
        exact Multiset.filter_le _ _
      have hsub : rows - ↑batch = rows.filter (fun row => ¬ row.key ∈ D) := by
        rw [hbm]
        exact (eq_tsub_of_add_eq (by
          rw [add_comm]
          exact Multiset.filter_add_not _ rows)).symm
      obtain ⟨hw2, hp2⟩ := deleteStep_WF P s.nFeatures s.store hch s.root rows batch 0
        t2 tr2 heqd hwf hpo hleB hnd hsok
      rw [hsub] at hw2
      refine ⟨hw2, hp2, ?_, ?_, ?_⟩
      · exact Multiset.nodup_of_le (Multiset.map_le_map (Multiset.filter_le _ _)) hnd
      · intro row hrow
        obtain ⟨hrmem, hrnot⟩ := Multiset.mem_filter.mp hrow
        have hpk : (!(D.contains row.key)) = true := by
          simp [hrnot]
        exact (lookup_filter_keys (fun k => !(D.contains k)) row.key hpk s.store).trans
          (hsok row hrmem)
      · have h6 : (s.store.filter (fun kv => !(D.contains kv.1))).map Prod.fst
            = (s.store.map Prod.fst).filter (fun k => !(D.contains k)) := by
          rw [List.filter_map]
          rfl
        show (↑((s.store.filter (fun kv => !(D.contains kv.1))).map Prod.fst)
          : Multiset ℕ) = _
        rw [h6, coe_filter_bool, hkeys, Multiset.filter_map]
        congr 1
        apply Multiset.filter_congr
        intro row _
        simp


/-- C7: a successful `fit` establishes, and a successful `delete` of a
duplicate-free key batch maintains, the tree invariant `TreeInv`: at every
internal node the cached per-feature branch counts equal the true counts
over the rows currently at that node and are at least 1 (`WF`), and no
feature is reused on any root-to-leaf path (`PathOK`). -/
theorem c7_invariant_maintained :
    (∀ (P : Params) (X : List (List ℕ)) (y : List ℕ) (s : TreeState),
      chooserValid P → X.length = y.length → fitT P X y = .ok s →
      TreeInv s ↑(mkRows X y (List.range X.length))) ∧
    (∀ (P : Params) (s : TreeState) (rows : Multiset TRow) (D : List ℕ)
      (s2 : TreeState) (tr : List String),
      chooserValid P → TreeInv s rows → D.Nodup →
      deleteT P s D = .ok (s2, tr) →
      TreeInv s2 (rows.filter (fun row => ¬ row.key ∈ D))) :=
  ⟨fun P X y s hch hxy hfit => fitT_TreeInv P X y s hch hxy hfit,
   fun P s rows D s2 tr hch hinv hD hdel => deleteT_TreeInv P s rows D s2 tr hch hinv hD hdel⟩

/-- C7 witness: the invariant holds concretely after `fit` on scenario A
and after the subsequent `delete([0])`. -/
theorem c7_witness :
    TreeInv stA ↑(mkRows XA yA (List.range XA.length)) ∧
    TreeInv stC7after (Multiset.filter (fun row => ¬ row.key ∈ ([0] : List ℕ))
      ↑(mkRows XA yA (List.range XA.length))) := by
  have hch : chooserValid PA := fun as ps h => by
    cases as with
    | nil => exact absurd rfl h
    | cons a t => exact List.mem_cons_self a t
  have h1 := c7_invariant_maintained.1 PA XA yA stA hch (by decide)
    (by with_unfolding_all rfl)
  exact ⟨h1, c7_invariant_maintained.2 PA stA _ [0] stC7after ["1a"] hch h1 (by decide)
    (by with_unfolding_all rfl)⟩


theorem predictValue_stripT (x : List ℕ) :
    ∀ t : DNode, predictValue x (stripT t) = predictValue x t := by
  intro t
  induction t with
  | leaf v st lv idx => rfl
  | node f st attr l r ihl ihr =>
    show predictValue x (.node f st attr (stripT l) (stripT r)) = _
    rw [predictValue, predictValue, ihl, ihr]

theorem map_yv_of_map_proj (l1 l2 : List TRow)
    (h : l1.map (fun r => (r.x, r.yv)) = l2.map (fun r => (r.x, r.yv))) :
    l1.map TRow.yv = l2.map TRow.yv := by
  have h1 : l1.map TRow.yv = (l1.map (fun r => (r.x, r.yv))).map Prod.snd := by
    rw [List.map_map]
    rfl
  have h2 : l2.map TRow.yv = (l2.map (fun r => (r.x, r.yv))).map Prod.snd := by
    rw [List.map_map]
    rfl
  rw [h1, h2, h]

/-- `_build_tree` never looks at row keys except to store them in leaf
index lists: two row lists with the same per-row (features, label) data
produce the same result up to leaf index lists, with the same errors and
the same number of seed calls. -/
theorem buildT_proj (P : Params) (F : ℕ) :
    ∀ (fuel : ℕ) (rows1 rows2 : List TRow) (depth : ℕ),
    rows1.map (fun r => (r.x, r.yv)) = rows2.map (fun r => (r.x, r.yv)) →
    (buildT P F fuel rows1 depth).map (fun t => (stripT t.1, t.2))
      = (buildT P F fuel rows2 depth).map (fun t => (stripT t.1, t.2)) := by
  intro fuel
  induction fuel with
  | zero => intro rows1 rows2 depth hproj; rfl
  | succ fuel ih =>
    intro rows1 rows2 depth hproj
    have hlen : rows2.length = rows1.length := by
      have h0 := congrArg List.length hproj
      simpa using h0.symm
    have hyv : rows2.map TRow.yv = rows1.map TRow.yv :=
      map_yv_of_map_proj rows2 rows1 hproj.symm
    have hfilt : ∀ g : ℕ, (rows2.filter (xAt g)).map (fun r : TRow => (r.x, r.yv))
        = (rows1.filter (xAt g)).map (fun r : TRow => (r.x, r.yv)) := by
      intro g
      have h1 : ∀ rows : List TRow, (rows.filter (xAt g)).map (fun r : TRow => (r.x, r.yv))
          = (rows.map (fun r : TRow => (r.x, r.yv))).filter
            (fun q => q.1.getD g 0 == 1) := by
        intro rows
        rw [List.filter_map]
        rfl
      rw [h1, h1, hproj]
    have hfiltn : ∀ g : ℕ,
        (rows2.filter (fun r => !(xAt g r))).map (fun r : TRow => (r.x, r.yv))
        = (rows1.filter (fun r => !(xAt g r))).map (fun r : TRow => (r.x, r.yv)) := by
      intro g
      have h1 : ∀ rows : List TRow,
          (rows.filter (fun r => !(xAt g r))).map (fun r : TRow => (r.x, r.yv))
          = (rows.map (fun r : TRow => (r.x, r.yv))).filter
            (fun q => !(q.1.getD g 0 == 1)) := by
        intro rows
        rw [List.filter_map]
        rfl
      rw [h1, h1, hproj]
    have hsplit : ∀ g : ℕ, splitRecFor rows2 g = splitRecFor rows1 g := by
      intro g
      have e1 : (rows2.filter (xAt g)).length = (rows1.filter (xAt g)).length := by
        have h0 := congrArg List.length (hfilt g)
        simpa using h0
      have e2 : (rows2.filter (xAt g)).map TRow.yv
          = (rows1.filter (xAt g)).map TRow.yv :=
        map_yv_of_map_proj _ _ (hfilt g)
      have e3 : (rows2.filter (fun r => !(xAt g r))).map TRow.yv
          = (rows1.filter (fun r => !(xAt g r))).map TRow.yv :=
        map_yv_of_map_proj _ _ (hfiltn g)
      rw [splitRecFor, splitRecFor, e1, e2, e3, hlen]
    have hcand : (List.range F).filterMap
          (fun i => (splitRecFor rows2 i).map (fun s => (i, s)))
        = (List.range F).filterMap
          (fun i => (splitRecFor rows1 i).map (fun s => (i, s))) := by
      have h0 : (fun i => (splitRecFor rows2 i).map (fun s => (i, s)))
          = (fun i => (splitRecFor rows1 i).map (fun s => (i, s))) :=
        funext (fun i => by rw [hsplit i])
      rw [h0]
    rw [buildT, buildT, hlen, hyv, hcand]
    by_cases h0 : rows1.length = 0
    · rw [if_pos h0, if_pos h0]
    · rw [if_neg h0, if_neg h0]
      by_cases h1 : ((rows1.map TRow.yv).sum = 0
          ∨ (rows1.map TRow.yv).sum = rows1.length) ∧ depth = 0
      · rw [if_pos h1, if_pos h1]
      · rw [if_neg h1, if_neg h1]
        by_cases h2 : rows1.length < P.minSamplesSplit ∨ depth = P.maxDepth
            ∨ (F : ℤ) - (depth : ℤ) = 0 ∨ (rows1.map TRow.yv).sum = 0
            ∨ (rows1.map TRow.yv).sum = rows1.length
        · rw [if_pos h2, if_pos h2]
          rfl
        · rw [if_neg h2, if_neg h2]
          dsimp only
          by_cases h3 : (List.map Prod.fst (List.filterMap
              (fun i => Option.map (fun s => (i, s)) (splitRecFor rows1 i))
              (List.range F))).isEmpty = true
          · rw [if_pos h3, if_pos h3]
          · rw [if_neg h3, if_neg h3]
            generalize (P.chooser (List.map Prod.fst (List.filterMap
              (fun i => Option.map (fun s => (i, s)) (splitRecFor rows1 i))
              (List.range F))) (normalize (List.map (softWeight P)
                (List.map (fun c => c.2.gini_index) (List.filterMap
                  (fun i => Option.map (fun s => (i, s)) (splitRecFor rows1 i))
                  (List.range F)))))) = fc
            have ihL := ih (rows1.filter (xAt fc)) (rows2.filter (xAt fc))
              (depth + 1) (hfilt fc).symm
            have ihR := ih (rows1.filter (fun r => !(xAt fc r)))
              (rows2.filter (fun r => !(xAt fc r))) (depth + 1) (hfiltn fc).symm
            cases hL1 : buildT P F fuel (rows1.filter (xAt fc)) (depth + 1) with
            | error e1 =>
              rw [hL1] at ihL
              cases hL2 : buildT P F fuel (rows2.filter (xAt fc)) (depth + 1) with
              | error e2 =>
                rw [hL2] at ihL
                simp only [Except.map] at ihL
                injection ihL with he
                subst he
                cases hR1 : buildT P F fuel (rows1.filter (fun r => !(xAt fc r)))
                    (depth + 1) <;>
                  cases hR2 : buildT P F fuel (rows2.filter (fun r => !(xAt fc r)))
                    (depth + 1) <;> rfl
              | ok p2 =>
                rw [hL2] at ihL
                simp [Except.map] at ihL
            | ok p1 =>
              rw [hL1] at ihL
              cases hL2 : buildT P F fuel (rows2.filter (xAt fc)) (depth + 1) with
              | error e2 =>
                rw [hL2] at ihL
                simp [Except.map] at ihL
              | ok p2 =>
                rw [hL2] at ihL
                simp only [Except.map] at ihL
                injection ihL with hp
                obtain ⟨l1, sl1⟩ := p1
                obtain ⟨l2, sl2⟩ := p2
                have hpl : stripT l1 = stripT l2 := congrArg Prod.fst hp
                have hps : sl1 = sl2 := congrArg Prod.snd hp
                cases hR1 : buildT P F fuel (rows1.filter (fun r => !(xAt fc r)))
                    (depth + 1) with
                | error e1 =>
                  rw [hR1] at ihR
                  cases hR2 : buildT P F fuel (rows2.filter (fun r => !(xAt fc r)))
                      (depth + 1) with
                  | error e2 =>
                    rw [hR2] at ihR
                    simp only [Except.map] at ihR
                    injection ihR with he
                    subst he
                    rfl
                  | ok q2 =>
                    rw [hR2] at ihR
                    simp [Except.map] at ihR
                | ok q1 =>
                  rw [hR1] at ihR
                  cases hR2 : buildT P F fuel (rows2.filter (fun r => !(xAt fc r)))
                      (depth + 1) with
                  | error e2 =>
                    rw [hR2] at ihR
                    simp [Except.map] at ihR
                  | ok q2 =>
                    rw [hR2] at ihR
                    simp only [Except.map] at ihR
                    injection ihR with hq
                    obtain ⟨r1, sr1⟩ := q1
                    obtain ⟨r2, sr2⟩ := q2
                    have hql : stripT r1 = stripT r2 := congrArg Prod.fst hq
                    have hqs : sr1 = sr2 := congrArg Prod.snd hq
                    show Except.ok (stripT (DNode.node fc _ _ l1 r1), 1 + sl1 + sr1)
                      = Except.ok (stripT (DNode.node fc _ _ l2 r2), 1 + sl2 + sr2)
                    rw [stripT, stripT, hpl, hql, hps, hqs]



/-- On any duplicate-free permutation of `0..n-1`, `_remove_elements`
returns exactly the kept keys in increasing order. -/
theorem removeElements_perm_range (arr D : List ℕ) (n : ℕ)
    (hperm : (↑arr : Multiset ℕ) = ↑(List.range n)) :
    removeElements arr D = keepKeys n D := by
  have hnd : arr.Nodup := by
    rw [← Multiset.coe_nodup, hperm, Multiset.coe_nodup]
    exact List.nodup_range n
  rw [removeElements, keepKeys]
  rw [List.dedup_eq_self.mpr (hnd.filter _)]
  have hs1 : List.Sorted (· ≤ ·) (List.insertionSort (· ≤ ·)
      (arr.filter (fun a => !(D.contains a)))) :=
    List.sorted_insertionSort (· ≤ ·) _
  have hs2 : List.Sorted (· ≤ ·) ((List.range n).filter (fun i => !(D.contains i))) :=
    (sorted_le_range n).filter _
  have hp : List.Perm (List.insertionSort (· ≤ ·) (arr.filter (fun a => !(D.contains a))))
      ((List.range n).filter (fun i => !(D.contains i))) := by
    rw [← Multiset.coe_eq_coe]
    rw [Multiset.coe_eq_coe.mpr
      (List.perm_insertionSort (· ≤ ·) (arr.filter (fun a => !(D.contains a))))]
    rw [coe_filter_bool, coe_filter_bool, hperm]
  exact List.eq_of_perm_of_sorted hp hs1 hs2

theorem mkRows_map_proj (A : List (List ℕ)) (B : List ℕ) (ks : List ℕ)
    (hab : A.length = B.length) (hak : A.length = ks.length) :
    (mkRows A B ks).map (fun r : TRow => (r.x, r.yv)) = A.zip B := by
  induction A generalizing B ks with
  | nil =>
    cases B with
    | nil => rfl
    | cons b bt => simp at hab
  | cons a at2 ih =>
    cases B with
    | nil => simp at hab
    | cons b bt =>
      cases ks with
      | nil => simp at hak
      | cons k kt =>
        show (a, b) :: (mkRows at2 bt kt).map (fun r : TRow => (r.x, r.yv)) = (a, b) :: at2.zip bt
        rw [ih bt kt (by simpa using hab) (by simpa using hak)]


/-- C1 (amended): `fit(X, y)` + `delete(D)` agrees with `fit(X − D, y − D)`
whenever the delete performs a full rebuild at the root (trace `2a_0`): the
rebuilt tree is built from exactly the surviving rows, which differ from
the reduced fit's rows only in their keys, so every per-sample prediction
coincides. Without a rebuild the claim fails — `_delete` never re-applies
`min_samples_split` (see the counterexample). -/
theorem c1_root_rebuild_agrees (P : Params) (X : List (List ℕ)) (y : List ℕ)
    (D : List ℕ) (s s2 : TreeState) (tr : List String)
    (f : ℕ) (st : NodeStats) (attr : List (ℕ × SplitRec)) (l r : DNode)
    (batch : List TRow) (frec : SplitRec)
    (hch : chooserValid P)
    (hxy : X.length = y.length)
    (hF : ((reducedX X D).headD []).length = (X.headD []).length)
    (hfit : fitT P X y = .ok s)
    (hroot : s.root = .node f st attr l r)
    (hbatch : getData s.store D = some batch)
    (hmono : ¬ ((deleteNodeStats st batch).pos_count = 0 ∨
      (deleteNodeStats st batch).pos_count = (deleteNodeStats st batch).count))
    (hlook : attr.lookup f = some frec)
    (hhang : frec.left.count - ((batch.filter (xAt f)).length : ℤ) ≤ 0 ∨
      frec.right.count - ((batch.filter (fun row => !(xAt f row))).length : ℤ) ≤ 0)
    (hdel : deleteT P s D = .ok (s2, tr)) :
    tr = ["2a_" ++ Nat.repr 0] ∧
    ∀ x : List ℕ,
      (fitT P (reducedX X D) (reducedY X y D)).map (fun s3 => predictValue x s3.root)
        = .ok (predictValue x s2.root) := by
  rw [fitT] at hfit
  cases hb : buildT P ((X.headD []).length) (P.maxDepth + 1)
      (mkRows X y (List.range X.length)) 0 with
  | error e =>
    rw [hb] at hfit
    simp only [Except.map] at hfit
    exact absurd hfit (by simp)
  | ok t =>
    rw [hb] at hfit
    obtain ⟨root, sc⟩ := t
    simp only [Except.map] at hfit
    injection hfit with hfit
    subst hfit
    dsimp only at hroot hbatch
    subst hroot
    have hwf := (buildT_WF P _ hch _ _ _ _ _ hb).1
    have hfetch : ∀ k ∈ D, (storeOf X y).lookup k
        = some (((storeOf X y).lookup k).getD ([], 0)) := by
      intro k hk
      obtain ⟨v, hv⟩ := getData_some_lookup (storeOf X y) D batch hbatch k hk
      rw [hv]
      rfl
    have hbatch_eq : batch = D.map (fun k =>
        (⟨(((storeOf X y).lookup k).getD ([], 0)).1,
          (((storeOf X y).lookup k).getD ([], 0)).2, k⟩ : TRow)) := by
      have h5 := getData_eq_map (storeOf X y)
        (fun k => ((storeOf X y).lookup k).getD ([], 0)) D hfetch
      rw [hbatch] at h5
      injection h5
    have hbkm : batch.map TRow.key = D := by
      rw [hbatch_eq, List.map_map,
        show (TRow.key ∘ fun k => (⟨(((storeOf X y).lookup k).getD ([], 0)).1,
          (((storeOf X y).lookup k).getD ([], 0)).2, k⟩ : TRow)) = id from rfl,
        List.map_id]
    have hgat : (↑(gatherIndices (DNode.node f (deleteNodeStats st batch) attr l r))
        : Multiset ℕ) = ↑(List.range X.length) := by
      have h6 : (↑(gatherIndices (DNode.node f (deleteNodeStats st batch) attr l r))
          : Multiset ℕ) = Multiset.map TRow.key ↑(mkRows X y (List.range X.length)) := by
        obtain ⟨-, -, hwl, hwr⟩ := hwf
        show (↑(gatherIndices l ++ gatherIndices r) : Multiset ℕ) = _
        rw [← Multiset.coe_add, gather_keys l _ hwl, gather_keys r _ hwr,
          ← Multiset.map_add, Multiset.filter_add_not]
      rw [h6, Multiset.map_coe,
        mkRows_map_key X y _ hxy (List.length_range X.length).symm]
    have hks : removeElements
        (gatherIndices (DNode.node f (deleteNodeStats st batch) attr l r))
        (batch.map TRow.key) = keepKeys X.length D := by
      rw [hbkm]
      exact removeElements_perm_range _ D X.length hgat
    have hkeep_lt : ∀ k ∈ keepKeys X.length D, k < X.length := by
      intro k hk
      rw [keepKeys, List.mem_filter] at hk
      exact List.mem_range.mp hk.1
    have hgd2 : getData (storeOf X y) (keepKeys X.length D)
        = some ((keepKeys X.length D).map
          (fun k => (⟨X.getD k [], y.getD k 0, k⟩ : TRow))) :=
      getData_eq_map (storeOf X y) (fun k => (X.getD k [], y.getD k 0))
        (keepKeys X.length D) (fun k hk => lookup_storeOf X y k (hkeep_lt k hk))
    rw [deleteT] at hdel
    dsimp only at hdel
    split at hdel
    case h_1 heq =>
      rw [hbatch] at heq
      exact Option.noConfusion heq
    case h_2 b heq =>
      rw [hbatch] at heq
      injection heq with heq2
      subst heq2
      cases hb2 : buildT P ((X.headD []).length) (P.maxDepth + 1 - 0)
          ((keepKeys X.length D).map
            (fun k => (⟨X.getD k [], y.getD k 0, k⟩ : TRow))) 0 with
      | error e2 =>
        have hstep : deleteStep P ((X.headD []).length) (storeOf X y)
            (.node f st attr l r) batch 0
            = .error (e2, .node f (deleteNodeStats st batch) attr l r) := by
          rw [deleteStep]
          rw [if_neg (fun hq => hmono hq.2)]
          rw [if_neg hmono]
          rw [hlook]
          simp only [if_pos hhang, hks, hgd2, hb2]
        rw [hstep] at hdel
        exact absurd hdel (by simp)
      | ok t2sc =>
        obtain ⟨t2, sc2⟩ := t2sc
        have hstep : deleteStep P ((X.headD []).length) (storeOf X y)
            (.node f st attr l r) batch 0
            = .ok (t2, ["2a_" ++ Nat.repr 0]) := by
          rw [deleteStep]
          rw [if_neg (fun hq => hmono hq.2)]
          rw [if_neg hmono]
          rw [hlook]
          simp only [if_pos hhang, hks, hgd2, hb2]
        rw [hstep] at hdel
        injection hdel with h7
        injection h7 with h8 h9
        subst h8
        subst h9
        refine ⟨rfl, ?_⟩
        intro x
        rw [fitT]
        dsimp only
        rw [hF]
        have hproj : (mkRows (reducedX X D) (reducedY X y D)
            (List.range (reducedX X D).length)).map (fun r2 : TRow => (r2.x, r2.yv))
            = ((keepKeys X.length D).map
              (fun k => (⟨X.getD k [], y.getD k 0, k⟩ : TRow))).map
                (fun r2 : TRow => (r2.x, r2.yv)) := by
          rw [mkRows_map_proj _ _ _ (by
              rw [reducedX, reducedY, List.length_map, List.length_map])
            (by
              rw [reducedX, List.length_map]
              exact (List.length_range _).symm)]
          rw [reducedX, reducedY, List.zip_map']
          rw [List.map_map]
          rfl
        have hbp := buildT_proj P ((X.headD []).length) (P.maxDepth + 1)
          (mkRows (reducedX X D) (reducedY X y D) (List.range (reducedX X D).length))
          ((keepKeys X.length D).map (fun k => (⟨X.getD k [], y.getD k 0, k⟩ : TRow)))
          0 hproj
        have hb2b := hb2
        rw [Nat.sub_zero] at hb2b
        rw [hb2b] at hbp
        cases hbr : buildT P ((X.headD []).length) (P.maxDepth + 1)
            (mkRows (reducedX X D) (reducedY X y D)
              (List.range (reducedX X D).length)) 0 with
        | error e3 =>
          rw [hbr] at hbp
          simp [Except.map] at hbp
        | ok t3sc =>
          obtain ⟨t3, sc3⟩ := t3sc
          rw [hbr] at hbp
          simp only [Except.map] at hbp
          injection hbp with h10
          have hstp : stripT t3 = stripT t2 := congrArg Prod.fst h10
          simp only [Except.map]
          rw [show predictValue x t3 = predictValue x t2 from by
            rw [← predictValue_stripT x t3, hstp, predictValue_stripT x t2]]


/-- C1 witness: on the `stC9` scenario the delete rebuilds at the root
(trace `2a_0`) and the reduced fit predicts the same value on `[1, 0]`. -/
theorem c1_witness :
    (fitT PA (reducedX XC9 [0, 3]) (reducedY XC9 yC9 [0, 3])).map
        (fun s3 => predictValue [1, 0] s3.root)
      = .ok (predictValue [1, 0] stC9after.root) :=
  (c1_root_rebuild_agrees PA XC9 yC9 [0, 3] stC9 stC9after ["2a_" ++ Nat.repr 0]
    0 ⟨4, 2, 1 / 2⟩
    [(0, ⟨⟨2, 1, 1 / 2, 1 / 2, 1 / 2, 1 / 4⟩, ⟨2, 1, 1 / 2, 1 / 2, 1 / 2, 1 / 4⟩, 1 / 2⟩),
     (1, ⟨⟨2, 1, 1 / 2, 1 / 2, 1 / 2, 1 / 4⟩, ⟨2, 1, 1 / 2, 1 / 2, 1 / 2, 1 / 4⟩, 1 / 2⟩)]
    (.node 1 ⟨2, 1, 1 / 2⟩ [(1, ⟨⟨1, 0, 1 / 2, 0, 0, 0⟩, ⟨1, 1, 1 / 2, 1, 0, 0⟩, 0⟩)]
      (.leaf 0 ⟨1, 0, 0⟩ 0 [3]) (.leaf 1 ⟨1, 1, 0⟩ 1 [0]))
    (.node 1 ⟨2, 1, 1 / 2⟩ [(1, ⟨⟨1, 1, 1 / 2, 1, 0, 0⟩, ⟨1, 0, 1 / 2, 0, 0, 0⟩, 0⟩)]
      (.leaf 1 ⟨1, 1, 0⟩ 1 [1]) (.leaf 0 ⟨1, 0, 0⟩ 0 [2]))
    batch9
    ⟨⟨2, 1, 1 / 2, 1 / 2, 1 / 2, 1 / 4⟩, ⟨2, 1, 1 / 2, 1 / 2, 1 / 2, 1 / 4⟩, 1 / 2⟩
    (fun as ps h => by
      cases as with
      | nil => exact absurd rfl h
      | cons a t => exact List.mem_cons_self a t)
    (by decide)
    (by with_unfolding_all rfl)
    (by with_unfolding_all rfl)
    rfl
    (by with_unfolding_all rfl)
    (by decide)
    rfl
    (by decide)
    (by with_unfolding_all rfl)).2 [1, 0]

end Mulan
